import Mathlib

set_option maxRecDepth 100000

/-!
Verification of the getmyancestors core (GEDCOM acquisition, codec and merge)
against its natural-language specification.  The Python source
(`getmyancestors/classes/classes.py` and the standalone variant
`getmyancestors.py`, which carries the constant tables) is shallowly embedded:
Python `str` values become `String`/`List Char`, Python sets become duplicate-free
`List`s with insertion determinized in encounter order, Python dicts become
association lists, and every network access is threaded through an explicit
environment of fetch functions.
-/

/-! ## Text primitives -/

/-- UTF-8 byte length of a character list, matching Python
`len(s.encode("utf-8"))` (Python counts one `len` unit per code point, as
`List Char` does). -/
def bytesLen (cl : List Char) : Nat := (cl.map Char.utf8Size).sum

/-- Whitespace class of the regex `[ \t\v]` used by `cont`. -/
def isWsp (c : Char) : Bool := c = ' ' || c = '\t' || c = Char.ofNat 11

def hasWsp (cl : List Char) : Bool := cl.any isWsp

/-- Inner index-adjustment loop of `cont` (classes.py lines 54-59):
starting from `min(max_len, len(c_line) - 2)`, decrement the split index while
the prefix exceeds the byte budget or the two characters straddling the split
contain whitespace, stopping at index 1. -/
def adjustIndex (cl : List Char) (maxLen : Nat) : Nat → Nat
  | 0 => 0
  | 1 => 1
  | n + 2 =>
    if bytesLen (cl.take (n + 2)) > maxLen || hasWsp ((cl.drop (n + 1)).take 2) then
      adjustIndex cl maxLen (n + 1)
    else n + 2

/-- The `while len(c_line.encode("utf-8")) > max_len` loop of `cont`
(classes.py lines 53-63), producing the CONC segments of one embedded line.
`fuel` only bounds the recursion; `concSplit` is run with fuel equal to the
character count, which the loop never exceeds since every iteration removes at
least one character.  (With a split index of 0 Python would loop forever; that
needs `len(c_line) <= 2` with more than `max_len` bytes, impossible for the
budgets 255/248 used by the program, and the embedding returns the residue.) -/
def concSplit (fuel maxLen : Nat) (cl : List Char) : List (List Char) :=
  match fuel with
  | 0 => [cl]
  | fuel + 1 =>
    if bytesLen cl > maxLen then
      let index := adjustIndex cl maxLen (min maxLen (cl.length - 2))
      if index = 0 then [cl]
      else cl.take index :: concSplit fuel 248 (cl.drop index)
    else [cl]

/-- CONC segments of one embedded line of a value, first-segment budget
`maxLen`. -/
def contLineSegs (maxLen : Nat) (cl : List Char) : List (List Char) :=
  concSplit cl.length maxLen cl

/-- Python `str.splitlines` restricted to `\n` line breaks (the serializer only
ever embeds `\n`): split at every newline and drop a final empty piece. -/
def splitNl : List Char → List (List Char)
  | [] => [[]]
  | c :: rest =>
    if c = '\n' then [] :: splitNl rest
    else
      match splitNl rest with
      | [] => [[c]]
      | l :: ls => (c :: l) :: ls

def splitlines (cl : List Char) : List (List Char) :=
  if cl = [] then []
  else
    let ps := splitNl cl
    if ps.getLast? = some [] then ps.dropLast else ps

/-- Python `sep.join(pieces)`. -/
def joinSep (sep : List Char) : List (List Char) → List Char
  | [] => []
  | [l] => l
  | l :: ls => l ++ sep ++ joinSep sep ls

/-- Decimal digits of a natural number, most significant first, matching
Python `"%s" % n`. -/
def natChars (n : Nat) : List Char := Nat.toDigits 10 n

/-- Numeric value of a digit character, for `int(string[:1])`. -/
def digitVal (c : Char) : Nat := c.toNat - '0'.toNat

/-- Per-line assembly of `cont` (classes.py lines 50-65): each line is split
into CONC segments and joined with `"\n%s CONC "`; the byte budget is 255 for
the very first segment of the value and 248 afterwards. -/
def contRes (level : Nat) : Nat → List (List Char) → List (List Char)
  | _, [] => []
  | maxLen, l :: ls =>
    joinSep ('\n' :: (natChars level ++ " CONC ".data)) (contLineSegs maxLen l)
      :: contRes level 248 ls

/-- The GEDCOM line-wrapping encoder `cont` (classes.py lines 44-66): the
continuation level is one more than the digit heading the value, embedded lines
are joined with `"\n%s CONT "`, and a final newline is appended.  (Python
raises on an input not starting with a digit; the embedding reads level 1
there, a case the program never produces.) -/
def cont (cl : List Char) : List Char :=
  let level := digitVal (cl.headD '0') + 1
  joinSep ('\n' :: (natChars level ++ " CONT ".data)) (contRes level 255 (splitlines cl))
    ++ ['\n']

/-! ## Session.get_url -/

/-- Outcome of one attempt of the HTTP request issued by `Session.get_url`:
either a transport failure (read timeout / connection reset), or a response
with a status code, a flag telling whether the 403 error body carries the
message "Unable to get ordinances.", and the decoded JSON body (`none` when
the body is not decodable).  The JSON payload itself is irrelevant to the
control flow and is abstracted to a number. -/
inductive FetchEvent where
  | timeout
  | connError
  | resp (code : Nat) (ordinanceMsg : Bool) (body : Option Nat)
deriving DecidableEq

/-- Result of `Session.get_url`: Python returns `None`, the string
`"error"`, or the decoded JSON. -/
inductive GetUrlResult where
  | noData
  | errorSignal
  | ok (j : Nat)
deriving DecidableEq

/-- The retry loop of `Session.get_url` (classes.py lines 159-215, identical
in session.py), driven by the successive outcomes of the repeated request.
Transport failures and retryable statuses consume the next event; `none`
models the case where the supplied event trace runs out while the loop is
still retrying.  A 401 response triggers `self.login()` and a retry; login
touches only the session cookie, not the return value, so it is not
modelled further here. -/
def get_url : List FetchEvent → Option GetUrlResult
  | [] => none
  | .timeout :: rest => get_url rest
  | .connError :: rest => get_url rest
  | .resp code ordMsg body :: rest =>
    if code = 204 then some .noData
    else if code = 404 ∨ code = 405 ∨ code = 410 ∨ code = 500 then some .noData
    else if code = 401 then get_url rest
    else if 400 ≤ code ∧ code < 600 then
      if code = 403 then
        if ordMsg then some .errorSignal else some .noData
      else get_url rest
    else
      match body with
      | some j => some (.ok j)
      | none => some .noData

/-! ## Entity model -/

/-- Python optional string; `None` and `""` are falsy. -/
abbrev OStr := Option String

def truthy (o : OStr) : Bool := o ≠ none && o ≠ some ""

/-- Python `x if x else None`, as used by `Fam.__init__` on its parent ids. -/
def normFid (o : OStr) : OStr := if truthy o then o else none

/-- Python whitespace, for `str.strip` and `str.split()`. -/
def isPyWsp (c : Char) : Bool :=
  c = ' ' || c = '\t' || c = '\n' || c = '\r' || c = Char.ofNat 11 || c = Char.ofNat 12

/-- Python `str.strip()`. -/
def pyStrip (s : String) : String :=
  ⟨((s.data.dropWhile isPyWsp).reverse.dropWhile isPyWsp).reverse⟩

def strDrop (s : String) (n : Nat) : String := ⟨s.data.drop n⟩

def strStartsWith (s pat : String) : Bool := pat.data.isPrefixOf s.data

/-- Association-list lookup, modelling Python dict access. -/
def alookup {κ β : Type} [DecidableEq κ] (k : κ) : List (κ × β) → Option β
  | [] => none
  | (k', v) :: rest => if k = k' then some v else alookup k rest

/-- Association-list write `d[k] = v`: replaces in place or appends
(Python dicts keep insertion order). -/
def aset {κ β : Type} [DecidableEq κ] (k : κ) (v : β) : List (κ × β) → List (κ × β)
  | [] => [(k, v)]
  | (k', v') :: rest => if k = k' then (k, v) :: rest else (k', v') :: aset k v rest

/-- In-place mutation `d[k].f(...)` of an existing entry; missing keys are
left untouched (the program only mutates entries it just looked up). -/
def aupdate {κ β : Type} [DecidableEq κ] (k : κ) (f : β → β) : List (κ × β) → List (κ × β)
  | [] => []
  | (k', v') :: rest => if k = k' then (k', f v') :: rest else (k', v') :: aupdate k f rest

/-- Python `set.add`, determinized: append unless already present. -/
def sinsert {α : Type} [DecidableEq α] (a : α) (l : List α) : List α :=
  if a ∈ l then l else l ++ [a]

/-- Python `s |= t`, determinized in iteration order of `t`. -/
def sunion {α : Type} [DecidableEq α] (l t : List α) : List α :=
  t.foldl (fun acc a => sinsert a acc) l

/-- A GEDCOM Note: `oid` is the Python object identity (several entities may
reference the same Note), `num` its GEDCOM identifier, `text` its content. -/
structure MNote where
  oid : Nat
  num : Nat
  text : String
deriving DecidableEq

structure NameR where
  given : String := ""
  surname : String := ""
  pfx : Option String := none
  sfx : Option String := none
  noteRef : Option Nat := none
deriving DecidableEq

structure FactR where
  value : Option String := none
  ftype : Option String := none
  date : Option String := none
  place : Option String := none
  noteRef : Option Nat := none
  map : Option (String × String) := none
deriving DecidableEq

structure OrdinanceR where
  date : Option String := none
  temple : Option String := none
  status : Option String := none
  famcKey : Option (OStr × OStr) := none
deriving DecidableEq

structure MemorieR where
  description : Option String := none
  url : Option String := none
deriving DecidableEq

structure SourceR where
  num : Nat
  fid : Option String := none
  url : Option String := none
  citation : Option String := none
  title : Option String := none
  notes : List Nat := []
deriving DecidableEq

/-- GEDCOM individual (`Indi`).  Note and Source members are held by
reference: notes as oids into `Tree.notes`, sources as (source fid, citation
quote) pairs into `Tree.sources`. -/
structure IndiR where
  num : Nat
  fid : Option String := none
  famc_fid : List (OStr × OStr) := []
  fams_fid : List (OStr × OStr) := []
  famc_num : List Nat := []
  fams_num : List Nat := []
  name : Option NameR := none
  gender : Option String := none
  living : Option Bool := none
  parents : List (OStr × OStr) := []
  spouses : List (String × String × String) := []
  children : List (OStr × OStr × OStr) := []
  baptism : Option OrdinanceR := none
  confirmation : Option OrdinanceR := none
  initiatory : Option OrdinanceR := none
  endowment : Option OrdinanceR := none
  sealing_child : Option OrdinanceR := none
  nicknames : List NameR := []
  facts : List FactR := []
  birthnames : List NameR := []
  married : List NameR := []
  aka : List NameR := []
  notes : List Nat := []
  sources : List (String × Option String) := []
  memories : List MemorieR := []
deriving DecidableEq

/-- GEDCOM family (`Fam`), keyed in the tree by the raw
(father fid, mother fid) pair. -/
structure FamR where
  num : Nat
  husb_fid : OStr := none
  wife_fid : OStr := none
  husb_num : Option Nat := none
  wife_num : Option Nat := none
  fid : Option String := none
  facts : List FactR := []
  sealing_spouse : Option OrdinanceR := none
  chil_fid : List OStr := []
  chil_num : List Nat := []
  notes : List Nat := []
  sources : List (String × Option String) := []
deriving DecidableEq

/-- The Graph Store, embedding the Python class `Tree` (the name `FSTree`
avoids the `Tree` already defined by Mathlib).  The per-class Python counters
(`Indi.counter`, `Fam.counter`, `Note.counter`, `Source.counter`) are carried
here; `oidc` allocates object identities for Notes. -/
structure FSTree where
  indi : List (String × IndiR) := []
  fam : List ((OStr × OStr) × FamR) := []
  notes : List MNote := []
  sources : List (String × SourceR) := []
  places : List (String × (String × String)) := []
  indic : Nat := 0
  famc : Nat := 0
  notec : Nat := 0
  sourcec : Nat := 0
  oidc : Nat := 0
deriving DecidableEq

/-- `Note.__init__(text, tree)`: bump the counter, strip the text, append to
`tree.notes`; returns the oid of the new note. -/
def newNote (t : FSTree) (text : String) : FSTree × Nat :=
  let num := t.notec + 1
  let oid := t.oidc + 1
  ({ t with
      notec := num
      oidc := oid
      notes := t.notes ++ [{ oid := oid, num := num, text := pyStrip text }] },
    oid)

/-! ## Fact construction and serialization -/

/-- `FACT_TAGS` (getmyancestors.py lines 43-64). -/
def FACT_TAGS : List (String × String) :=
  [("http://gedcomx.org/Birth", "BIRT"),
   ("http://gedcomx.org/Christening", "CHR"),
   ("http://gedcomx.org/Death", "DEAT"),
   ("http://gedcomx.org/Burial", "BURI"),
   ("http://gedcomx.org/PhysicalDescription", "DSCR"),
   ("http://gedcomx.org/Occupation", "OCCU"),
   ("http://gedcomx.org/MilitaryService", "_MILT"),
   ("http://gedcomx.org/Marriage", "MARR"),
   ("http://gedcomx.org/Divorce", "DIV"),
   ("http://gedcomx.org/Annulment", "ANUL"),
   ("http://gedcomx.org/CommonLawMarriage", "_COML"),
   ("http://gedcomx.org/BarMitzvah", "BARM"),
   ("http://gedcomx.org/BatMitzvah", "BASM"),
   ("http://gedcomx.org/Naturalization", "NATU"),
   ("http://gedcomx.org/Residence", "RESI"),
   ("http://gedcomx.org/Religion", "RELI"),
   ("http://familysearch.org/v1/TitleOfNobility", "TITL"),
   ("http://gedcomx.org/Cremation", "CREM"),
   ("http://gedcomx.org/Caste", "CAST"),
   ("http://gedcomx.org/Nationality", "NATI")]

/-- `FACT_EVEN` (getmyancestors.py lines 66-73). -/
def FACT_EVEN : List (String × String) :=
  [("http://gedcomx.org/Stillbirth", "Stillborn"),
   ("http://familysearch.org/v1/Affiliation", "Affiliation"),
   ("http://gedcomx.org/Clan", "Clan Name"),
   ("http://gedcomx.org/NationalId", "National Identification"),
   ("http://gedcomx.org/Ethnicity", "Race"),
   ("http://familysearch.org/v1/TribeName", "Tribe Name")]

/-- FamilySearch fact payload, restricted to the keys `Fact.__init__` reads:
`value`, `type`, `date.original`, `place.(original, description)`,
`attribution.changeMessage`. -/
structure FactData where
  value : Option String := none
  ftype : Option String := none
  date : Option String := none
  place : Option (String × Option String) := none
  changeMessage : Option String := none
deriving DecidableEq

/-- External host functions the embedding treats as oracles: the translation
table lookup `Session._` and `urllib.parse.unquote`. -/
structure TextEnv where
  tr : String → String
  unquote : String → String

/-- `Fact.__init__(data, tree)` (classes.py lines 323-348): copy value, map
the type through `FACT_EVEN` (translated) or decode a `data:,` type or drop
unknown types, copy date and place, resolve the place description against
`tree.places`, turn an attribution change message into a Note, and normalize
a death fact with falsy date and place to value `"Y"`. -/
def factInit (env : TextEnv) (t : FSTree) (d : FactData) : FSTree × FactR :=
  let value := d.value
  let ftype := match d.ftype with
    | none => none
    | some ty =>
      match alookup ty FACT_EVEN with
      | some ev => some (env.tr ev)
      | none =>
        if strStartsWith ty "data:," then some (env.unquote (strDrop ty 6))
        else if (alookup ty FACT_TAGS).isSome then some ty
        else none
  let date := d.date
  let place := d.place.map Prod.fst
  let map := match d.place with
    | some (_, some desc) => alookup (strDrop desc 1) t.places
    | _ => none
  let (t, noteRef) := match d.changeMessage with
    | some msg =>
      let (t', oid) := newNote t msg
      (t', some oid)
    | none => (t, none)
  let value :=
    if ftype = some "http://gedcomx.org/Death" && !(truthy date || truthy place) then
      some "Y"
    else value
  (t, { value := value, ftype := ftype, date := date, place := place
        noteRef := noteRef, map := map })

/-- `Note.link(file, level)`. -/
def noteLink (level : Nat) (oid : Nat) (notes : List MNote) : List Char :=
  let num := ((notes.find? (·.oid = oid)).map (·.num)).getD 0
  natChars level ++ " NOTE @N".data ++ natChars num ++ "@\n".data

/-- `Fact.print` (classes.py lines 350-373).  Notes are resolved against the
tree note table to print their GEDCOM identifier. -/
def factPrint (f : FactR) (notes : List MNote) : List Char :=
  let head :=
    match f.ftype with
    | some ty =>
      match alookup ty FACT_TAGS with
      | some tag =>
        let tmp := "1 ".data ++ tag.data ++
          (match f.value with
           | some v => if truthy (some v) then " ".data ++ v.data else []
           | none => [])
        cont tmp
      | none =>
        if truthy f.ftype then
          "1 EVEN\n2 TYPE ".data ++ ty.data ++ "\n".data ++
            (match f.value with
             | some v => if truthy (some v) then cont ("2 NOTE Description: ".data ++ v.data) else []
             | none => [])
        else []
    | none => []
  if head = [] ∧ ¬ truthy f.ftype then []
  else
    head ++
    (match f.date with
     | some dt => if truthy (some dt) then cont ("2 DATE ".data ++ dt.data) else []
     | none => []) ++
    (match f.place with
     | some pl => if truthy (some pl) then cont ("2 PLAC ".data ++ pl.data) else []
     | none => []) ++
    (match f.map with
     | some (la, lo) =>
       "3 MAP\n4 LATI ".data ++ la.data ++ "\n4 LONG ".data ++ lo.data ++ "\n".data
     | none => []) ++
    (match f.noteRef with
     | some oid => noteLink 2 oid notes
     | none => [])

/-! ## Graph Store mutation: add_fam, add_trio -/

/-- `Indi.add_fams`. -/
def IndiR.add_fams (i : IndiR) (fams : OStr × OStr) : IndiR :=
  { i with fams_fid := sinsert fams i.fams_fid }

/-- `Indi.add_famc`. -/
def IndiR.add_famc (i : IndiR) (famc : OStr × OStr) : IndiR :=
  { i with famc_fid := sinsert famc i.famc_fid }

/-- `Fam.add_child`. -/
def FamR.add_child (f : FamR) (child : OStr) : FamR :=
  { f with chil_fid := sinsert child f.chil_fid }

/-- `Fam.__init__(husb, wife, tree)`: the stored parent ids are normalized
(`husb if husb else None`); the key under which the family is filed keeps the
raw pair. -/
def famInit (husb wife : OStr) (num : Nat) : FamR :=
  { num := num, husb_fid := normFid husb, wife_fid := normFid wife }

/-- Python `fid in self.indi` for an optional fid (`None` is never a key). -/
def FSTree.memI (t : FSTree) (o : OStr) : Bool :=
  match o with
  | some s => (alookup s t.indi).isSome
  | none => false

/-- `Tree.add_fam` (classes.py lines 899-905). -/
def FSTree.add_fam (t : FSTree) (father mother : OStr) : FSTree :=
  if (alookup (father, mother) t.fam).isSome then t
  else
    let num := t.famc + 1
    { t with famc := num, fam := aset (father, mother) (famInit father mother num) t.fam }

/-- One `if parent in self.indi: self.indi[parent].add_fams((father, mother))`
statement of `Tree.add_trio`. -/
def FSTree.addFamsIfKnown (t : FSTree) (p : OStr) (key : OStr × OStr) : FSTree :=
  match p with
  | some f =>
    if (alookup f t.indi).isSome then
      { t with indi := aupdate f (fun i => i.add_fams key) t.indi }
    else t
  | none => t

/-- `Tree.add_trio` (classes.py lines 907-920). -/
def FSTree.add_trio (t : FSTree) (father mother child : OStr) : FSTree :=
  let t := t.addFamsIfKnown father (father, mother)
  let t := t.addFamsIfKnown mother (father, mother)
  if t.memI child && (t.memI father || t.memI mother) then
    let t :=
      match child with
      | some c =>
        { t with indi := aupdate c (fun i => i.add_famc (father, mother)) t.indi }
      | none => t
    let t := t.add_fam father mother
    { t with fam := aupdate (father, mother) (fun f => f.add_child child) t.fam }
  else t

/-! ## Batch acquisition: person payloads and Indi.add_data -/

/-- Python `str.replace(pat, rep)` for a non-empty pattern; `fuel` bounds the
scan (passed as the string length, one character is consumed per step). -/
def replaceAll (pat rep : List Char) : Nat → List Char → List Char
  | _, [] => []
  | 0, cl => cl
  | fuel + 1, c :: rest =>
    if pat ≠ [] ∧ pat.isPrefixOf (c :: rest) then
      rep ++ replaceAll pat rep fuel ((c :: rest).drop pat.length)
    else c :: replaceAll pat rep fuel rest

def strReplace (s pat rep : String) : String :=
  ⟨replaceAll pat.data rep.data s.data.length s.data⟩

/-- Python `"\n".join(strings)`. -/
def strJoinNl (ls : List String) : String :=
  ⟨joinSep ['\n'] (ls.map String.data)⟩

/-- FamilySearch name payload: `preferred`, `type`, the `nameForms[0].parts`
list as (part type, value) pairs (`none` when the `parts` key is absent) and
`attribution.changeMessage`. -/
structure NameData where
  preferred : Bool := false
  ntype : Option String := none
  parts : Option (List (String × String)) := none
  changeMessage : Option String := none
deriving DecidableEq

/-- `Name.__init__(data, tree)` (classes.py lines 407-425). -/
def nameInit (t : FSTree) (d : NameData) : FSTree × NameR :=
  let base : NameR :=
    match d.parts with
    | none => {}
    | some ps =>
      ps.foldl (fun n pv =>
        let n := if pv.1 = "http://gedcomx.org/Given" then { n with given := pv.2 } else n
        let n := if pv.1 = "http://gedcomx.org/Surname" then { n with surname := pv.2 } else n
        let n := if pv.1 = "http://gedcomx.org/Prefix" then { n with pfx := some pv.2 } else n
        if pv.1 = "http://gedcomx.org/Suffix" then { n with sfx := some pv.2 } else n) {}
  match d.changeMessage with
  | some m =>
    let (t', oid) := newNote t m
    (t', { base with noteRef := some oid })
  | none => (t, base)

/-- FamilySearch source description payload, restricted to the keys
`Source.__init__` reads. -/
structure SourceData where
  sid : String := ""
  about : Option String := none
  citation : Option String := none
  title : Option String := none
  noteTexts : List String := []
deriving DecidableEq

/-- Response of the `/platform/tree/persons/{fid}/sources` detail fetch:
the (descriptionId, changeMessage) pairs of `persons[0].sources` and the
`sourceDescriptions` list. -/
structure SourcesData where
  quotes : List (String × Option String) := []
  descriptions : List SourceData := []
deriving DecidableEq

/-- `Source.__init__(data, tree)` (classes.py lines 273-297): bump the
counter, rewrite the memories url, and turn each non-empty note text into a
shared Note on the tree. -/
def sourceInit (t : FSTree) (d : SourceData) : FSTree × SourceR :=
  let num := t.sourcec + 1
  let t := { t with sourcec := num }
  let url := d.about.map fun u =>
    strReplace u "familysearch.org/platform/memories/memories"
      "www.familysearch.org/photos/artifacts"
  let (t, noteOids) := d.noteTexts.foldl
    (fun (acc : FSTree × List Nat) txt =>
      if txt ≠ "" then
        let (t', oid) := newNote acc.1 txt
        (t', acc.2 ++ [oid])
      else acc) (t, [])
  (t, { num := num, fid := some d.sid, url := url, citation := d.citation
        title := d.title, notes := noteOids })

/-- One `sourceDescriptions` entry of the memories detail fetch. -/
structure MemorieData where
  media : String := ""
  links : Bool := false
  about : Option String := none
  titles : List String := []
  descriptions : List String := []
deriving DecidableEq

/-- Response of the `/platform/tree/persons/{fid}/memories` detail fetch;
`none` models both a `None` reply and a reply without `sourceDescriptions`. -/
structure MemoriesData where
  descriptions : List MemorieData := []
deriving DecidableEq

/-- `Memorie.__init__(data)` (classes.py lines 381-390). -/
def memorieInit (d : MemorieData) : MemorieR :=
  if d.links then
    let desc1 := d.titles.head?
    let desc :=
      match d.descriptions.head? with
      | none => desc1
      | some dv =>
        some ((match desc1 with | none => "" | some tt => tt ++ "\n") ++ dv)
    { description := desc, url := d.about }
  else {}

/-- FamilySearch person payload, restricted to the keys `Indi.add_data`
reads; `hasSources`/`hasEvidence` model the presence of the `sources` and
`evidence` keys which trigger the detail fetches. -/
structure PersonData where
  living : Bool := false
  names : List NameData := []
  gender : Option String := none
  facts : Option (List FactData) := none
  hasSources : Bool := false
  hasEvidence : Bool := false
deriving DecidableEq

/-- A couple entry of the batch `relationships` list. -/
structure CoupleRel where
  rtype : String := ""
  person1 : String := ""
  person2 : String := ""
  relfid : String := ""
deriving DecidableEq

/-- One reply of the batch fetch `/platform/tree/persons?pids=...`:
persons with their payloads, place descriptors as (id, (latitude,
longitude)), `childAndParentsRelationships` as (parent1, parent2, child)
resource ids, and `relationships`. -/
structure BatchData where
  persons : List (String × PersonData) := []
  places : List (String × (String × String)) := []
  childParentRels : List (OStr × OStr × OStr) := []
  coupleRels : List CoupleRel := []
deriving DecidableEq

/-- The full fetch environment: the translation and url-decoding host
functions plus the three network endpoints used during batch acquisition. -/
structure FSEnv where
  text : TextEnv
  fetchBatch : List String → Option BatchData
  fetchSources : String → Option SourcesData
  fetchMemories : String → Option MemoriesData

/-- One name of the `data["names"]` loop of `Indi.add_data` (classes.py
lines 511-522): the preferred name becomes the primary name, other names are
filed by type tag. -/
def addNameRec (acc : FSTree × IndiR) (nd : NameData) : FSTree × IndiR :=
  let (t, i) := acc
  if nd.preferred then
    let (t', nm) := nameInit t nd
    (t', { i with name := some nm })
  else if nd.ntype = some "http://gedcomx.org/Nickname" then
    let (t', nm) := nameInit t nd
    (t', { i with nicknames := sinsert nm i.nicknames })
  else if nd.ntype = some "http://gedcomx.org/BirthName" then
    let (t', nm) := nameInit t nd
    (t', { i with birthnames := sinsert nm i.birthnames })
  else if nd.ntype = some "http://gedcomx.org/AlsoKnownAs" then
    let (t', nm) := nameInit t nd
    (t', { i with aka := sinsert nm i.aka })
  else if nd.ntype = some "http://gedcomx.org/MarriedName" then
    let (t', nm) := nameInit t nd
    (t', { i with married := sinsert nm i.married })
  else (t, i)

/-- One fact of the `data["facts"]` loop of `Indi.add_data` (classes.py lines
530-541): a LifeSketch fact becomes a Note, anything else a Fact. -/
def addFactRec (tx : TextEnv) (acc : FSTree × IndiR) (fd : FactData) :
    FSTree × IndiR :=
  let (t, i) := acc
  if fd.ftype = some "http://familysearch.org/v1/LifeSketch" then
    let (t', oid) := newNote t
      ("=== " ++ tx.tr "Life Sketch" ++ " ===\n" ++ fd.value.getD "")
    (t', { i with notes := sinsert oid i.notes })
  else
    let (t', f) := factInit tx t fd
    (t', { i with facts := sinsert f i.facts })

/-- One source description of the sources loop of `Indi.add_data` (classes.py
lines 554-559): the Source is created once per process (keyed by external id
in `tree.sources`) and the individual records the (source, quote) pair. -/
def addSourceRec (quotes : List (String × Option String)) (acc : FSTree × IndiR)
    (src : SourceData) : FSTree × IndiR :=
  let (t, i) := acc
  let t :=
    if alookup src.sid t.sources = none then
      let (t', sr) := sourceInit t src
      { t' with sources := aset src.sid sr t'.sources }
    else t
  (t, { i with sources := sinsert (src.sid, (alookup src.sid quotes).getD none) i.sources })

/-- One entry of the memories loop of `Indi.add_data` (classes.py lines
563-573): plain-text memories become Notes, the rest Memorie records. -/
def addMemorieRec (acc : FSTree × IndiR) (x : MemorieData) : FSTree × IndiR :=
  let (t, i) := acc
  if x.media = "text/plain" then
    let (t', oid) := newNote t (strJoinNl (x.titles ++ x.descriptions))
    (t', { i with notes := sinsert oid i.notes })
  else
    (t, { i with memories := sinsert (memorieInit x) i.memories })

/-- The gender step of `Indi.add_data` (classes.py lines 523-529). -/
def addDataGender (g : Option String) (acc : FSTree × IndiR) : FSTree × IndiR :=
  match g with
  | some g =>
    if g = "http://gedcomx.org/Male" then (acc.1, { acc.2 with gender := some "M" })
    else if g = "http://gedcomx.org/Female" then (acc.1, { acc.2 with gender := some "F" })
    else if g = "http://gedcomx.org/Unknown" then (acc.1, { acc.2 with gender := some "U" })
    else acc
  | none => acc

/-- The facts step of `Indi.add_data` (classes.py lines 530-541). -/
def addDataFacts (tx : TextEnv) (fs : Option (List FactData)) (acc : FSTree × IndiR) :
    FSTree × IndiR :=
  match fs with
  | none => acc
  | some fds => fds.foldl (addFactRec tx) acc

/-- The sources step of `Indi.add_data` (classes.py lines 542-559): triggered
by the presence of the `sources` key, it fetches the source detail resource
for the individual and files each description. -/
def addDataSources (env : FSEnv) (hasSources : Bool) (acc : FSTree × IndiR) :
    FSTree × IndiR :=
  if hasSources then
    match env.fetchSources (acc.2.fid.getD "") with
    | none => acc
    | some sd => sd.descriptions.foldl (addSourceRec sd.quotes) acc
  else acc

/-- The memories step of `Indi.add_data` (classes.py lines 560-573). -/
def addDataMemories (env : FSEnv) (hasEvidence : Bool) (acc : FSTree × IndiR) :
    FSTree × IndiR :=
  if hasEvidence then
    match env.fetchMemories (acc.2.fid.getD "") with
    | none => acc
    | some md => md.descriptions.foldl addMemorieRec acc
  else acc

/-- `Indi.add_data(data)` (classes.py lines 507-573), with the per-entity
detail fetches (sources, memories) drawn from the environment and the shared
Note/Source tables threaded through the tree. -/
def addData (env : FSEnv) (t : FSTree) (i : IndiR) (d : Option PersonData) :
    FSTree × IndiR :=
  match d with
  | none => (t, i)
  | some d =>
    addDataMemories env d.hasEvidence
      (addDataSources env d.hasSources
        (addDataFacts env.text d.facts
          (addDataGender d.gender
            (d.names.foldl addNameRec (t, { i with living := some d.living })))))

/-! ## Tree.add_indis -/

/-- `MAX_PERSONS` (getmyancestors.py line 41). -/
def MAX_PERSONS : Nat := 200

/-- One iteration of the `data["places"]` loop of `Tree.add_indis`. -/
def FSTree.addPlaceRec (t : FSTree) (pl : String × (String × String)) : FSTree :=
  if alookup pl.1 t.places = none then { t with places := aset pl.1 pl.2 t.places }
  else t

/-- One person of a batch: `self.indi[person["id"]] = Indi(person["id"],
self)` followed by `add_data(person)`. -/
def FSTree.addPersonRec (env : FSEnv) (t : FSTree) (pd : String × PersonData) : FSTree :=
  let num := t.indic + 1
  let ti := addData env { t with indic := num } { num := num, fid := some pd.1 } (some pd.2)
  { ti.1 with indi := aset pd.1 ti.2 ti.1.indi }

/-- One entry of the `childAndParentsRelationships` loop (classes.py lines
869-882). -/
def FSTree.addParentChildRec (t : FSTree) (rel : OStr × OStr × OStr) : FSTree :=
  let father := rel.1
  let mother := rel.2.1
  let child := rel.2.2
  let t :=
    match child with
    | some c =>
      if (alookup c t.indi).isSome then
        { t with indi := (aupdate c
            (fun i => { i with parents := sinsert (father, mother) i.parents }) t.indi) }
      else t
    | none => t
  let t :=
    match father with
    | some f =>
      if (alookup f t.indi).isSome then
        { t with indi := (aupdate f
            (fun i => { i with children := sinsert (father, mother, child) i.children })
            t.indi) }
      else t
    | none => t
  match mother with
  | some m =>
    if (alookup m t.indi).isSome then
      { t with indi := (aupdate m
          (fun i => { i with children := sinsert (father, mother, child) i.children })
          t.indi) }
    else t
  | none => t

/-- One entry of the couple `relationships` loop (classes.py lines 883-896). -/
def FSTree.addCoupleRec (t : FSTree) (rel : CoupleRel) : FSTree :=
  if rel.rtype = "http://gedcomx.org/Couple" then
    let t :=
      if (alookup rel.person1 t.indi).isSome then
        { t with indi := (aupdate rel.person1
            (fun i => { i with
              spouses := sinsert (rel.person1, rel.person2, rel.relfid) i.spouses })
            t.indi) }
      else t
    if (alookup rel.person2 t.indi).isSome then
      { t with indi := (aupdate rel.person2
          (fun i => { i with
            spouses := sinsert (rel.person1, rel.person2, rel.relfid) i.spouses })
          t.indi) }
    else t
  else t

/-- Processing of one batch reply inside the `while new_fids` loop of
`Tree.add_indis` (classes.py lines 859-896); the concurrent `add_data` tasks
of `add_datas` are determinized in response order. -/
def FSTree.processBatch (env : FSEnv) (t : FSTree) (data : BatchData) : FSTree :=
  let t := data.places.foldl FSTree.addPlaceRec t
  let t := data.persons.foldl (fun t pd => t.addPersonRec env pd) t
  let t := data.childParentRels.foldl FSTree.addParentChildRec t
  data.coupleRels.foldl FSTree.addCoupleRec t

/-- The `while new_fids` loop of `Tree.add_indis`: fetch a `MAX_PERSONS`
chunk, process it when the fetch yields data, then advance by `MAX_PERSONS`.
`fuel` only bounds the recursion and is passed as the list length. -/
def addIndisChunks (env : FSEnv) : Nat → FSTree → List String → FSTree
  | _, t, [] => t
  | 0, t, _ :: _ => t
  | fuel + 1, t, fids@(_ :: _) =>
    let t :=
      match env.fetchBatch (fids.take MAX_PERSONS) with
      | some data => t.processBatch env data
      | none => t
    addIndisChunks env fuel t (fids.drop MAX_PERSONS)

/-- `Tree.add_indis(fids)` (classes.py lines 837-897): filter out falsy and
already-known ids (`new_fids = [fid for fid in fids if fid and fid not in
self.indi]`), then fetch and process the remainder in `MAX_PERSONS` chunks. -/
def FSTree.add_indis (env : FSEnv) (t : FSTree) (fids : List OStr) : FSTree :=
  let new_fids := fids.filterMap fun o =>
    match o with
    | some f => if f ≠ "" ∧ alookup f t.indi = none then some f else none
    | none => none
  addIndisChunks env new_fids.length t new_fids

/-! ## Tree.add_parents, Tree.add_children and the download loops -/

/-- The parent-couple collection of `Tree.add_parents` (classes.py lines
926-929): the parent ids (including `None` placeholders) of every frontier
member already present in the store. -/
def collectParents (t : FSTree) (fids : List String) : List OStr :=
  fids.foldl (fun acc fid =>
    match alookup fid t.indi with
    | some ind =>
      ind.parents.foldl (fun acc cpl => sinsert cpl.2 (sinsert cpl.1 acc)) acc
    | none => acc) []

/-- The half-relationship condition `mother in self.indi and father in
self.indi or not father and mother in self.indi or not mother and father in
self.indi` (classes.py lines 933-941 and 988-994). -/
def trioCond (t : FSTree) (father mother : OStr) : Bool :=
  (t.memI mother && t.memI father) || (!truthy father && t.memI mother)
    || (!truthy mother && t.memI father)

/-- `Tree.add_parents(fids)` (classes.py lines 922-943): collect the parent
couples of the known frontier members, fetch the previously-unseen parents,
link every trio with at least one resolvable parent, and return
`set(filter(None, parents))` — the collected parent ids minus falsy values. -/
def FSTree.add_parents (env : FSEnv) (t : FSTree) (fids : List String) :
    FSTree × List String :=
  let parents := collectParents t fids
  let t1 := if parents ≠ [] then t.add_indis env parents else t
  let t2 := fids.foldl (fun tc fid =>
    match alookup fid t1.indi with
    | some ind =>
      ind.parents.foldl (fun tc2 cpl =>
        if trioCond tc2 cpl.1 cpl.2 then tc2.add_trio cpl.1 cpl.2 (some fid)
        else tc2) tc
    | none => tc) t1
  (t2, parents.filterMap fun o =>
    match o with
    | some s => if s ≠ "" then some s else none
    | none => none)

/-- `Tree.add_children(fids)` (classes.py lines 977-998): collect the child
tuples of the known frontier members, fetch all their components, link every
trio whose child and at least one parent are known, and return the set of
children actually linked. -/
def FSTree.add_children (env : FSEnv) (t : FSTree) (fids : List String) :
    FSTree × List String :=
  let rels := fids.foldl (fun acc fid =>
    match alookup fid t.indi with
    | some ind => sunion acc ind.children
    | none => acc) []
  if rels = [] then (t, [])
  else
    let flat := rels.foldl
      (fun acc r => sinsert r.2.2 (sinsert r.2.1 (sinsert r.1 acc))) []
    let t1 := t.add_indis env flat
    rels.foldl (fun (acc : FSTree × List String) r =>
      let (tc, ch) := acc
      if tc.memI r.2.2 && trioCond tc r.1 r.2.1 then
        (tc.add_trio r.1 r.2.1 r.2.2,
          match r.2.2 with
          | some c => sinsert c ch
          | none => ch)
      else (tc, ch)) (t1, [])

/-- The ancestor loop of `Download.download` (classes.py lines 1886-1893):
`for i in range(ascendLimit): if not todo: break; done |= todo;
todo = add_parents(todo) - done`. -/
def ascendLoop (env : FSEnv) : Nat → FSTree → List String → List String →
    FSTree × List String × List String
  | 0, t, todo, done => (t, todo, done)
  | n + 1, t, todo, done =>
    if todo = [] then (t, todo, done)
    else
      let done2 := sunion done todo
      let tp := t.add_parents env todo
      ascendLoop env n tp.1 (tp.2.filter fun f => f ∉ done2) done2

/-- Number of loop iterations the ancestor loop actually executes. -/
def ascendSteps (env : FSEnv) : Nat → FSTree → List String → List String → Nat
  | 0, _, _, _ => 0
  | n + 1, t, todo, done =>
    if todo = [] then 0
    else
      let done2 := sunion done todo
      let tp := t.add_parents env todo
      ascendSteps env n tp.1 (tp.2.filter fun f => f ∉ done2) done2 + 1

/-- The descendant loop of `Download.download` (classes.py lines 1895-1902). -/
def descendLoop (env : FSEnv) : Nat → FSTree → List String → List String →
    FSTree × List String × List String
  | 0, t, todo, done => (t, todo, done)
  | n + 1, t, todo, done =>
    if todo = [] then (t, todo, done)
    else
      let done2 := sunion done todo
      let tp := t.add_children env todo
      descendLoop env n tp.1 (tp.2.filter fun f => f ∉ done2) done2

/-- Number of loop iterations the descendant loop actually executes. -/
def descendSteps (env : FSEnv) : Nat → FSTree → List String → List String → Nat
  | 0, _, _, _ => 0
  | n + 1, t, todo, done =>
    if todo = [] then 0
    else
      let done2 := sunion done todo
      let tp := t.add_children env todo
      descendSteps env n tp.1 (tp.2.filter fun f => f ∉ done2) done2 + 1

/-! ## Merge note renumbering and note printing (C7) -/

/-- Lexicographic code-point order on character lists, matching Python string
comparison (`sorted(..., key=lambda x: x.text)`). -/
def charsLe : List Char → List Char → Bool
  | [], _ => true
  | _ :: _, [] => false
  | a :: as, b :: bs =>
    if a.toNat < b.toNat then true
    else if b.toNat < a.toNat then false
    else charsLe as bs

def textLe (a b : String) : Bool := charsLe a.data b.data

/-- Order on Notes by text, as used by `sorted(tree.notes, key=lambda x:
x.text)` in `Merge.save`. -/
def noteTextRel (a b : MNote) : Prop := textLe a.text b.text = true

instance : DecidableRel noteTextRel := fun a b => decEq _ _

def charsLe_total (a b : List Char) : charsLe a b = true ∨ charsLe b a = true := by
  induction a generalizing b with
  | nil => left; rfl
  | cons x xs ih =>
    cases b with
    | nil => right; rfl
    | cons y ys =>
      by_cases h1 : x.toNat < y.toNat
      · left; simp [charsLe, h1]
      · by_cases h2 : y.toNat < x.toNat
        · right; simp [charsLe, h1, h2]
        · rcases ih ys with h | h
          · left; simp [charsLe, h1, h2, h]
          · right; simp [charsLe, h1, h2, h]

def charsLe_trans : ∀ a b c : List Char,
    charsLe a b = true → charsLe b c = true → charsLe a c = true
  | [], _, _, _, _ => rfl
  | x :: xs, [], _, hab, _ => by simp [charsLe] at hab
  | x :: xs, y :: ys, [], _, hbc => by simp [charsLe] at hbc
  | x :: xs, y :: ys, z :: zs, hab, hbc => by
    simp only [charsLe] at hab hbc ⊢
    by_cases h1 : x.toNat < y.toNat
    · by_cases h2 : y.toNat < z.toNat
      · have : x.toNat < z.toNat := by omega
        simp [this]
      · by_cases h3 : z.toNat < y.toNat
        · simp [h2, h3] at hbc
        · have : x.toNat < z.toNat := by omega
          simp [this]
    · by_cases h4 : y.toNat < x.toNat
      · simp [h1, h4] at hab
      · by_cases h2 : y.toNat < z.toNat
        · have : x.toNat < z.toNat := by omega
          simp [this]
        · by_cases h3 : z.toNat < y.toNat
          · simp [h2, h3] at hbc
          · have hxz : ¬ x.toNat < z.toNat := by omega
            have hzx : ¬ z.toNat < x.toNat := by omega
            simp only [h1, if_false, h4, if_false] at hab
            simp only [h2, if_false, h3, if_false] at hbc
            simp only [hxz, if_false, hzx, if_false]
            exact charsLe_trans xs ys zs hab hbc

instance : IsTotal MNote noteTextRel :=
  ⟨fun a b => charsLe_total a.text.data b.text.data⟩

instance : IsTrans MNote noteTextRel :=
  ⟨fun a b c => charsLe_trans a.text.data b.text.data c.text.data⟩

/-- Order on Notes by GEDCOM number, as used by `sorted(self.notes,
key=lambda x: x.num)` in `Tree.print`. -/
def noteNumRel (a b : MNote) : Prop := a.num ≤ b.num

instance : DecidableRel noteNumRel := fun a b => Nat.decLe _ _

instance : IsTotal MNote noteNumRel := ⟨fun a b => Nat.le_total a.num b.num⟩

instance : IsTrans MNote noteNumRel := ⟨fun _ _ _ => Nat.le_trans⟩

/-- The running renumbering of `Merge.save` (classes.py lines 1569-1576)
after the first note: each note keeps the previous number when its text
repeats the previous text and takes the next number otherwise. -/
def renumberAux (ptext : String) (pnum : Nat) : List MNote → List MNote
  | [] => []
  | n :: rest =>
    let num := if n.text = ptext then pnum else pnum + 1
    { n with num := num } :: renumberAux n.text num rest

/-- The note renumbering of `Merge.save` (classes.py lines 1567-1576): sort
the merged notes by text, give the first number 1, and walk the rest with
`renumberAux`. -/
def renumberNotes (ns : List MNote) : List MNote :=
  match List.insertionSort noteTextRel ns with
  | [] => []
  | n :: rest => { n with num := 1 } :: renumberAux n.text 1 rest

/-- The adjacent-duplicate filter of the note section of `Tree.print`
(classes.py lines 1056-1060): a note is skipped when its number equals the
previous note's number. -/
def dedupAdjNum (prev : MNote) : List MNote → List MNote
  | [] => []
  | n :: rest => (if n.num = prev.num then [] else [n]) ++ dedupAdjNum n rest

def firstOfRuns : List MNote → List MNote
  | [] => []
  | n :: rest => n :: dedupAdjNum n rest

/-- The note section of `Tree.print` (classes.py lines 1055-1060): the notes
sorted by number, printing only the first of each run of equal numbers. -/
def printedNotes (ns : List MNote) : List MNote :=
  firstOfRuns (List.insertionSort noteNumRel ns)

/-! ## GEDCOM decoding: line reader and text folding (C1) -/

/-- Python `str.split()` with no argument: split on runs of whitespace,
dropping empty pieces. -/
def splitWsAux : List Char → List Char → List (List Char)
  | acc, [] => if acc = [] then [] else [acc.reverse]
  | acc, c :: rest =>
    if isPyWsp c then
      if acc = [] then splitWsAux [] rest
      else acc.reverse :: splitWsAux [] rest
    else splitWsAux (c :: acc) rest

def splitWs (cl : List Char) : List (List Char) := splitWsAux [] cl

/-- Python `int(word)` restricted to plain digit strings, the only shape a
GEDCOM level occupies (Python raises on anything else). -/
def parseNatChars (cl : List Char) : Option Nat :=
  if cl ≠ [] ∧ cl.all Char.isDigit then
    some (cl.foldl (fun acc c => acc * 10 + digitVal c) 0)
  else none

/-- The `Gedcom` reader state: the remaining physical lines plus the
level/pointer/tag/data of the line last read and the pushback flag. -/
structure GedReader where
  lines : List (List Char)
  level : Nat := 0
  pointer : Option (List Char) := none
  tag : List Char := []
  data : List Char := []
  flag : Bool := false
deriving DecidableEq

/-- `Gedcom.__get_line` (classes.py lines 1118-1138): honour the pushback
flag, split the next physical line on whitespace runs, and fill
level/pointer/tag/data — `data` is `" ".join(words[2:])` (or `words[3:]`
after a pointer), so any whitespace run inside the value collapses to a
single space.  Returns false when no words remain.  (Python raises on a
one-word line or a non-numeric level; the embedding fills empty fields
there, shapes the serializer never produces.) -/
def getLine (g : GedReader) : GedReader × Bool :=
  if g.flag then ({ g with flag := false }, true)
  else
    match g.lines with
    | [] => (g, false)
    | l :: rest =>
      let g := { g with lines := rest }
      match splitWs l with
      | [] => (g, false)
      | w0 :: ws =>
        let level := (parseNatChars w0).getD 0
        match ws with
        | [] => ({ g with level := level, pointer := none, tag := [], data := [] }, true)
        | w1 :: ws1 =>
          if w1.headD ' ' = '@' then
            let d := joinSep [' '] (ws1.drop 1)
            ({ g with level := level, pointer := some w1, tag := ws1.headD [], data := d },
              true)
          else
            let d := joinSep [' '] ws1
            ({ g with level := level, pointer := none, tag := w1, data := d }, true)

/-- `Gedcom.__get_text` (classes.py lines 1275-1286): starting from the
current data value, fold every following CONT line as a newline plus its
data and every CONC line as a direct append, then push back the first
other line.  `fuel` only bounds the loop and is passed as the line count
plus one. -/
def getTextAux : Nat → GedReader → List Char → GedReader × List Char
  | 0, g, text => ({ g with flag := true }, text)
  | fuel + 1, g, text =>
    let gb := getLine g
    if gb.2 = false then ({ gb.1 with flag := true }, text)
    else if gb.1.tag = "CONT".data then getTextAux fuel gb.1 (text ++ '\n' :: gb.1.data)
    else if gb.1.tag = "CONC".data then getTextAux fuel gb.1 (text ++ gb.1.data)
    else ({ gb.1 with flag := true }, text)

def getText (g : GedReader) : GedReader × List Char :=
  getTextAux (g.lines.length + 1) g g.data

/-- `Note.print` (classes.py lines 255-257). -/
def notePrint (n : MNote) : List Char :=
  cont ("0 @N".data ++ natChars n.num ++ "@ NOTE ".data ++ n.text.data)



/-! ## Theorems -/

example : cont "1 NOTE hi".data = "1 NOTE hi\n".data := by decide

/-! ## Lemmas about the line wrapper -/

theorem concSplit_succ (fuel maxLen : Nat) (cl : List Char) :
    concSplit (fuel + 1) maxLen cl =
      if bytesLen cl > maxLen then
        let index := adjustIndex cl maxLen (min maxLen (cl.length - 2))
        if index = 0 then [cl]
        else cl.take index :: concSplit fuel 248 (cl.drop index)
      else [cl] := rfl

theorem adjustIndex_two_succ (cl : List Char) (maxLen n : Nat) :
    adjustIndex cl maxLen (n + 2) =
      if bytesLen (cl.take (n + 2)) > maxLen || hasWsp ((cl.drop (n + 1)).take 2) then
        adjustIndex cl maxLen (n + 1)
      else n + 2 := rfl

theorem bytesLen_of_ascii (cl : List Char) (h : ∀ c ∈ cl, c.utf8Size = 1) :
    bytesLen cl = cl.length := by
  induction cl with
  | nil => rfl
  | cons c cs ih =>
    have hc := h c (List.mem_cons_self c cs)
    have := ih fun x hx => h x (List.mem_cons_of_mem c hx)
    simp only [bytesLen, List.map_cons, List.sum_cons, List.length_cons] at *
    omega

theorem hasWsp_eq_false (cl : List Char) (h : ∀ c ∈ cl, isWsp c = false) :
    hasWsp cl = false := by
  simp only [hasWsp, List.any_eq_false]
  intro x hx
  simp [h x hx]

/-- C2.  The claim states that a first embedded line of exactly 256 ASCII
bytes is wrapped into a 255-byte first segment plus a 1-byte CONC
continuation.  The code computes the split index as
`min(max_len, len(c_line) - 2)`, so the first segment holds 254 bytes and the
CONC continuation the remaining 2 bytes.  This theorem proves the amended
statement: for every line of 256 one-byte characters none of which is in the
whitespace class `[ \t\v]`, the wrapper emits a 254-byte first segment and
exactly one CONC continuation carrying the remaining 2 bytes. -/
theorem C2_cont_wrap_256_amended (cl : List Char) (hlen : cl.length = 256)
    (hascii : ∀ c ∈ cl, c.utf8Size = 1) (hw : ∀ c ∈ cl, isWsp c = false) :
    contLineSegs 255 cl = [cl.take 254, cl.drop 254] ∧
      (contLineSegs 255 cl).map bytesLen = [254, 2] := by
  have hbl : bytesLen cl = 256 := by rw [bytesLen_of_ascii cl hascii, hlen]
  have htake : bytesLen (cl.take 254) = 254 := by
    rw [bytesLen_of_ascii _ fun c hc => hascii c (List.take_subset 254 cl hc)]
    simp [List.length_take, hlen]
  have hdrop : bytesLen (cl.drop 254) = 2 := by
    rw [bytesLen_of_ascii _ fun c hc => hascii c (List.drop_subset 254 cl hc)]
    simp [List.length_drop, hlen]
  have hwsp : hasWsp ((cl.drop 253).take 2) = false :=
    hasWsp_eq_false _ fun c hc =>
      hw c (List.drop_subset 253 cl (List.take_subset 2 _ hc))
  have hadj : adjustIndex cl 255 254 = 254 := by
    have h2 : (254 : Nat) = 252 + 2 := rfl
    rw [h2, adjustIndex_two_succ]
    have : (252 : Nat) + 2 = 254 := rfl
    rw [this]
    have : (252 : Nat) + 1 = 253 := rfl
    rw [this, htake, hwsp]
    simp
  have hmain : contLineSegs 255 cl = [cl.take 254, cl.drop 254] := by
    have h1 : contLineSegs 255 cl = concSplit 256 255 cl := by
      unfold contLineSegs; rw [hlen]
    rw [h1]
    have h256 : (256 : Nat) = 255 + 1 := rfl
    rw [h256, concSplit_succ, hbl]
    have hidx : min 255 (cl.length - 2) = 254 := by rw [hlen]; rfl
    simp only [hidx, hadj]
    have h255 : (255 : Nat) = 254 + 1 := rfl
    rw [h255, concSplit_succ, hdrop]
    norm_num
  exact ⟨hmain, by rw [hmain]; simp [htake, hdrop]⟩

theorem C2_cont_wrap_256_amended_witness :
    (('1' :: List.replicate 255 'a').length = 256 ∧
        (∀ c ∈ '1' :: List.replicate 255 'a', c.utf8Size = 1) ∧
        (∀ c ∈ '1' :: List.replicate 255 'a', isWsp c = false)) ∧
      contLineSegs 255 ('1' :: List.replicate 255 'a') =
        [('1' :: List.replicate 255 'a').take 254,
          ('1' :: List.replicate 255 'a').drop 254] ∧
      (contLineSegs 255 ('1' :: List.replicate 255 'a')).map bytesLen = [254, 2] :=
  ⟨⟨by decide, by decide, by decide⟩,
    C2_cont_wrap_256_amended _ (by decide) (by decide) (by decide)⟩

/-- C2, counterexample.  On the concrete line made of `'1'` followed by 255
`'a'` characters — 256 ASCII bytes — the wrapper emits a 254-byte first
segment and a 2-byte continuation, not the 255-byte segment and 1-byte
continuation the claim states. -/
theorem C2_cont_wrap_256_counterexample :
    bytesLen ('1' :: List.replicate 255 'a') = 256 ∧
      ¬ (contLineSegs 255 ('1' :: List.replicate 255 'a')).map bytesLen = [255, 1] ∧
      (contLineSegs 255 ('1' :: List.replicate 255 'a')).map bytesLen = [254, 2] := by
  refine ⟨by decide, ?_, by decide⟩
  intro h
  have : (254 : Nat) = 255 := by
    have h2 : (contLineSegs 255 ('1' :: List.replicate 255 'a')).map bytesLen
        = [254, 2] := by decide
    rw [h2] at h
    exact ((List.cons.injEq _ _ _ _ ▸ h).1.symm).symm
  omega

/-- C9.  A response with status 404, 405, 410 or 500 makes `get_url` return
the no-data result immediately: the result is `noData` whatever events would
follow, so the request is not retried and the failure is not fatal — the
caller simply sees `None` for that resource. -/
theorem C9_get_url_soft_absent (code : Nat) (ordMsg : Bool) (body : Option Nat)
    (rest : List FetchEvent)
    (h : code = 404 ∨ code = 405 ∨ code = 410 ∨ code = 500) :
    get_url (.resp code ordMsg body :: rest) = some .noData := by
  rcases h with h | h | h | h <;> subst h <;> rfl

theorem C9_get_url_soft_absent_witness :
    ((404 : Nat) = 404 ∨ (404 : Nat) = 405 ∨ (404 : Nat) = 410 ∨ (404 : Nat) = 500) ∧
      get_url (.resp 404 false none :: [.resp 200 false (some 7)]) = some .noData :=
  ⟨Or.inl rfl, C9_get_url_soft_absent 404 false none [.resp 200 false (some 7)] (Or.inl rfl)⟩

/-- C8.  A death fact built with no date and no place gets its value
normalized to `"Y"`, and its serialization is the single line `1 DEAT Y`
optionally followed by the attribution note link — in particular no `DATE`
and no `PLAC` sub-line is emitted. -/
theorem C8_death_fact_normalized (env : TextEnv) (t : FSTree) (d : FactData)
    (ns : List MNote)
    (hty : d.ftype = some "http://gedcomx.org/Death")
    (hdate : d.date = none) (hplace : d.place = none) :
    (factInit env t d).2.value = some "Y" ∧
      (factPrint (factInit env t d).2 ns = "1 DEAT Y\n".data ∨
        ∃ k, factPrint (factInit env t d).2 ns =
          "1 DEAT Y\n".data ++ "2 NOTE @N".data ++ natChars k ++ "@\n".data) := by
  have hEven : alookup "http://gedcomx.org/Death" FACT_EVEN = (none : Option String) := by
    decide
  have hData : strStartsWith "http://gedcomx.org/Death" "data:," = false := by decide
  have hTags : alookup "http://gedcomx.org/Death" FACT_TAGS = some "DEAT" := by decide
  cases hmsg : d.changeMessage with
  | none =>
    have hf : (factInit env t d).2 =
        { value := some "Y", ftype := some "http://gedcomx.org/Death" } := by
      simp [factInit, hty, hdate, hplace, hmsg, hEven, hData, hTags, truthy]
    rw [hf]
    refine ⟨rfl, Or.inl ?_⟩
    have hcont : cont ['1', ' ', 'D', 'E', 'A', 'T', ' ', 'Y'] =
        "1 DEAT Y\n".data := by decide
    simp [factPrint, hTags, truthy, hcont]
  | some msg =>
    have hf : (factInit env t d).2 =
        { value := some "Y", ftype := some "http://gedcomx.org/Death",
          noteRef := some (t.oidc + 1) } := by
      simp [factInit, hty, hdate, hplace, hmsg, hEven, hData, hTags, truthy, newNote]
    rw [hf]
    refine ⟨rfl, Or.inr ⟨((ns.find? (·.oid = t.oidc + 1)).map (·.num)).getD 0, ?_⟩⟩
    have hcont : cont ['1', ' ', 'D', 'E', 'A', 'T', ' ', 'Y'] =
        "1 DEAT Y\n".data := by decide
    have hd2 : Nat.toDigits 10 2 = ['2'] := by decide
    simp [factPrint, hTags, truthy, hcont, noteLink, natChars, hd2]

theorem C8_death_fact_normalized_witness :
    (({ ftype := some "http://gedcomx.org/Death" } : FactData).ftype =
        some "http://gedcomx.org/Death" ∧
      ({ ftype := some "http://gedcomx.org/Death" } : FactData).date = none ∧
      ({ ftype := some "http://gedcomx.org/Death" } : FactData).place = none) ∧
      (factInit ⟨id, id⟩ {} { ftype := some "http://gedcomx.org/Death" }).2.value =
        some "Y" ∧
      (factPrint (factInit ⟨id, id⟩ {} { ftype := some "http://gedcomx.org/Death" }).2 []
          = "1 DEAT Y\n".data ∨
        ∃ k, factPrint
            (factInit ⟨id, id⟩ {} { ftype := some "http://gedcomx.org/Death" }).2 [] =
          "1 DEAT Y\n".data ++ "2 NOTE @N".data ++ natChars k ++ "@\n".data) :=
  ⟨⟨rfl, rfl, rfl⟩,
    C8_death_fact_normalized ⟨id, id⟩ {} { ftype := some "http://gedcomx.org/Death" }
      [] rfl rfl rfl⟩

/-! ## Association-list and set lemmas -/

theorem alookup_aset {κ β : Type} [DecidableEq κ] (k : κ) (v : β) (l : List (κ × β)) :
    alookup k (aset k v l) = some v := by
  induction l with
  | nil => simp [aset, alookup]
  | cons p rest ih =>
    obtain ⟨k', v'⟩ := p
    by_cases h : k = k' <;> simp [aset, alookup, h, ih]

theorem alookup_aupdate {κ β : Type} [DecidableEq κ] (k k' : κ) (f : β → β)
    (l : List (κ × β)) :
    alookup k (aupdate k' f l) = if k = k' then (alookup k l).map f else alookup k l := by
  induction l with
  | nil => by_cases h : k = k' <;> simp [aupdate, alookup, h]
  | cons p rest ih =>
    obtain ⟨k₀, v₀⟩ := p
    simp only [aupdate]
    by_cases h1 : k' = k₀
    · subst h1
      simp only [if_pos rfl]
      by_cases h2 : k = k'
      · subst h2; simp [alookup]
      · simp [alookup, h2]
    · simp only [if_neg h1]
      by_cases h2 : k = k₀
      · subst h2
        have h3 : ¬ k = k' := fun h => h1 h.symm
        simp [alookup, h3]
      · by_cases h3 : k = k'
        · subst h3
          simp [alookup, h1, h2, ih]
        · simp [alookup, h1, h2, h3, ih]

theorem alookup_isSome_aupdate {κ β : Type} [DecidableEq κ] (k k' : κ) (f : β → β)
    (l : List (κ × β)) :
    (alookup k (aupdate k' f l)).isSome = (alookup k l).isSome := by
  rw [alookup_aupdate]
  by_cases h : k = k' <;> simp [h]

theorem mem_sinsert_self {α : Type} [DecidableEq α] (a : α) (l : List α) :
    a ∈ sinsert a l := by
  by_cases h : a ∈ l <;> simp [sinsert, h]

/-- C6.  Linking a trio whose father is unknown (`None`) but whose mother and
child are known creates exactly one union under the key `(None, mother)` with
no husband, attaches the child to that union and records the key in the
child's `famc` set; and a trio whose both parents are unknown leaves the
Graph Store completely unchanged. -/
theorem C6_add_trio_half_known (t : FSTree) (m c : String)
    (hm : (alookup m t.indi).isSome = true) (hc : (alookup c t.indi).isSome = true)
    (hnew : alookup ((none : OStr), (some m : OStr)) t.fam = none) :
    (∃ f, alookup ((none : OStr), (some m : OStr))
          (t.add_trio none (some m) (some c)).fam = some f ∧
        f.husb_fid = none ∧ (some c : OStr) ∈ f.chil_fid) ∧
      (∃ i, alookup c (t.add_trio none (some m) (some c)).indi = some i ∧
        ((none : OStr), (some m : OStr)) ∈ i.famc_fid) ∧
      (∀ fa mo ch : OStr, t.memI fa = false → t.memI mo = false →
        t.add_trio fa mo ch = t) := by
  have hmemc : (alookup c (aupdate m (fun i => i.add_fams (none, some m)) t.indi)).isSome
      = true := by rw [alookup_isSome_aupdate]; exact hc
  have hmemm : (alookup m (aupdate m (fun i => i.add_fams (none, some m)) t.indi)).isSome
      = true := by rw [alookup_isSome_aupdate]; exact hm
  have ht : t.add_trio none (some m) (some c) =
      { t with
        indi := aupdate c (fun i => i.add_famc (none, some m))
                  (aupdate m (fun i => i.add_fams (none, some m)) t.indi)
        famc := t.famc + 1
        fam := aupdate ((none : OStr), (some m : OStr)) (fun f => f.add_child (some c))
                 (aset ((none : OStr), (some m : OStr))
                   (famInit none (some m) (t.famc + 1)) t.fam) } := by
    simp only [FSTree.add_trio, FSTree.addFamsIfKnown, FSTree.memI, FSTree.add_fam,
      hm, hmemc, hmemm, hnew, if_true, Bool.true_and, Bool.false_or,
      Option.isSome_none, Bool.false_eq_true, if_false, if_true]
  refine ⟨?_, ?_, ?_⟩
  · refine ⟨(famInit none (some m) (t.famc + 1)).add_child (some c), ?_, rfl, ?_⟩
    · rw [ht]
      show alookup _ (aupdate _ _ (aset _ _ _)) = _
      rw [alookup_aupdate, if_pos rfl, alookup_aset]
      rfl
    · simp only [FamR.add_child]
      exact mem_sinsert_self _ _
  · obtain ⟨i1, hi1⟩ := Option.isSome_iff_exists.mp hmemc
    refine ⟨i1.add_famc (none, some m), ?_, ?_⟩
    · rw [ht]
      show alookup c (aupdate c _ _) = _
      rw [alookup_aupdate, if_pos rfl, hi1]
      rfl
    · simp only [IndiR.add_famc]
      exact mem_sinsert_self _ _
  · intro fa mo ch hfa hmo
    cases fa with
    | none =>
      cases mo with
      | none => simp [FSTree.add_trio, FSTree.addFamsIfKnown, FSTree.memI]
      | some mm =>
        simp only [FSTree.memI] at hmo
        simp [FSTree.add_trio, FSTree.addFamsIfKnown, FSTree.memI, hmo]
    | some ff =>
      simp only [FSTree.memI] at hfa
      cases mo with
      | none => simp [FSTree.add_trio, FSTree.addFamsIfKnown, FSTree.memI, hfa]
      | some mm =>
        simp only [FSTree.memI] at hmo
        simp [FSTree.add_trio, FSTree.addFamsIfKnown, FSTree.memI, hfa, hmo]

theorem C6_add_trio_half_known_witness :
    (((alookup "M" ({ indi := [("M", { num := 1 }), ("C", { num := 2 })] }
          : FSTree).indi).isSome = true) ∧
      ((alookup "C" ({ indi := [("M", { num := 1 }), ("C", { num := 2 })] }
          : FSTree).indi).isSome = true) ∧
      alookup ((none : OStr), (some "M" : OStr))
        ({ indi := [("M", { num := 1 }), ("C", { num := 2 })] } : FSTree).fam = none) ∧
      ((∃ f, alookup ((none : OStr), (some "M" : OStr))
            (({ indi := [("M", { num := 1 }), ("C", { num := 2 })] }
              : FSTree).add_trio none (some "M") (some "C")).fam = some f ∧
          f.husb_fid = none ∧ (some "C" : OStr) ∈ f.chil_fid) ∧
        (∃ i, alookup "C"
            (({ indi := [("M", { num := 1 }), ("C", { num := 2 })] }
              : FSTree).add_trio none (some "M") (some "C")).indi = some i ∧
          ((none : OStr), (some "M" : OStr)) ∈ i.famc_fid) ∧
        (∀ fa mo ch : OStr,
          ({ indi := [("M", { num := 1 }), ("C", { num := 2 })] } : FSTree).memI fa = false →
          ({ indi := [("M", { num := 1 }), ("C", { num := 2 })] } : FSTree).memI mo = false →
          ({ indi := [("M", { num := 1 }), ("C", { num := 2 })] }
            : FSTree).add_trio fa mo ch =
            { indi := [("M", { num := 1 }), ("C", { num := 2 })] })) :=
  ⟨⟨by decide, by decide, by decide⟩,
    C6_add_trio_half_known { indi := [("M", { num := 1 }), ("C", { num := 2 })] }
      "M" "C" (by decide) (by decide) (by decide)⟩

/-! ## Frame effects of add_trio on an unknown child (C10) -/

theorem addFamsIfKnown_fam (t : FSTree) (p : OStr) (key : OStr × OStr) :
    (t.addFamsIfKnown p key).fam = t.fam := by
  cases p with
  | none => rfl
  | some f =>
    simp only [FSTree.addFamsIfKnown]
    by_cases h : (alookup f t.indi).isSome <;> simp [h]

theorem addFamsIfKnown_isSome (t : FSTree) (p : OStr) (key : OStr × OStr) (k : String) :
    (alookup k (t.addFamsIfKnown p key).indi).isSome = (alookup k t.indi).isSome := by
  cases p with
  | none => rfl
  | some f =>
    simp only [FSTree.addFamsIfKnown]
    by_cases h : (alookup f t.indi).isSome
    · simp only [h, if_true]
      exact alookup_isSome_aupdate k f _ t.indi
    · simp [h]

theorem addFamsIfKnown_memI (t : FSTree) (p : OStr) (key : OStr × OStr) (o : OStr) :
    (t.addFamsIfKnown p key).memI o = t.memI o := by
  cases o with
  | none => cases p with
    | none => rfl
    | some f =>
      simp only [FSTree.addFamsIfKnown]
      by_cases h : (alookup f t.indi).isSome <;> simp [h, FSTree.memI]
  | some s =>
    simp only [FSTree.memI]
    exact addFamsIfKnown_isSome t p key s

theorem addFamsIfKnown_famc (t : FSTree) (p : OStr) (key : OStr × OStr) (k : String) :
    (alookup k (t.addFamsIfKnown p key).indi).map IndiR.famc_fid
      = (alookup k t.indi).map IndiR.famc_fid := by
  cases p with
  | none => rfl
  | some f =>
    simp only [FSTree.addFamsIfKnown]
    by_cases h : (alookup f t.indi).isSome
    · simp only [h, if_true]
      rw [alookup_aupdate]
      by_cases h2 : k = f
      · subst h2
        cases hx : alookup k t.indi <;> simp [IndiR.add_fams]
      · simp [h2]
    · simp [h]

theorem mem_sinsert_of_mem {α : Type} [DecidableEq α] (a b : α) (l : List α)
    (h : a ∈ l) : a ∈ sinsert b l := by
  by_cases hb : b ∈ l <;> simp [sinsert, hb, h]

theorem addFamsIfKnown_mem_fams (t : FSTree) (p : OStr) (key : OStr × OStr)
    (k : String) (i : IndiR) (h : alookup k t.indi = some i) (hmem : key ∈ i.fams_fid) :
    ∃ j, alookup k (t.addFamsIfKnown p key).indi = some j ∧ key ∈ j.fams_fid := by
  cases p with
  | none => exact ⟨i, h, hmem⟩
  | some f =>
    simp only [FSTree.addFamsIfKnown]
    by_cases hf : (alookup f t.indi).isSome
    · simp only [hf, if_true]
      rw [alookup_aupdate]
      by_cases h2 : k = f
      · subst h2
        refine ⟨i.add_fams key, by simp [h], ?_⟩
        simp only [IndiR.add_fams]
        exact mem_sinsert_of_mem _ _ _ hmem
      · simp only [h2, if_false]
        exact ⟨i, h, hmem⟩
    · simp only [hf, if_false]
      exact ⟨i, h, hmem⟩

theorem addFamsIfKnown_self_mem (t : FSTree) (key : OStr × OStr) (f : String)
    (hf : (alookup f t.indi).isSome = true) :
    ∃ j, alookup f (t.addFamsIfKnown (some f) key).indi = some j ∧ key ∈ j.fams_fid := by
  obtain ⟨i, hi⟩ := Option.isSome_iff_exists.mp hf
  simp only [FSTree.addFamsIfKnown, hf, if_true]
  rw [alookup_aupdate, if_pos rfl, hi]
  refine ⟨i.add_fams key, rfl, ?_⟩
  simp only [IndiR.add_fams]
  exact mem_sinsert_self _ _

/-- C10.  Linking a trio whose child id is not a known individual still adds
the `(father, mother)` key to each known parent's `fams` set, while the union
collection and every individual's `famc` set are left unchanged: the rejection
of the trio is not free of side effects on the parents. -/
theorem C10_add_trio_unknown_child (t : FSTree) (father mother child : OStr)
    (hchild : t.memI child = false)
    (hpar : (t.memI father || t.memI mother) = true) :
    (t.add_trio father mother child).fam = t.fam ∧
      (∀ k : String, (alookup k (t.add_trio father mother child).indi).map IndiR.famc_fid
        = (alookup k t.indi).map IndiR.famc_fid) ∧
      (∀ f : String, father = some f → (alookup f t.indi).isSome = true →
        ∃ i, alookup f (t.add_trio father mother child).indi = some i ∧
          (father, mother) ∈ i.fams_fid) ∧
      (∀ m : String, mother = some m → (alookup m t.indi).isSome = true →
        ∃ i, alookup m (t.add_trio father mother child).indi = some i ∧
          (father, mother) ∈ i.fams_fid) := by
  have hcond : ((t.addFamsIfKnown father (father, mother)).addFamsIfKnown mother
      (father, mother)).memI child = false := by
    rw [addFamsIfKnown_memI, addFamsIfKnown_memI]
    exact hchild
  have ht : t.add_trio father mother child =
      (t.addFamsIfKnown father (father, mother)).addFamsIfKnown mother (father, mother) := by
    simp only [FSTree.add_trio, hcond, Bool.false_and, Bool.false_eq_true, if_false]
  refine ⟨?_, ?_, ?_, ?_⟩
  · rw [ht, addFamsIfKnown_fam, addFamsIfKnown_fam]
  · intro k
    rw [ht, addFamsIfKnown_famc, addFamsIfKnown_famc]
  · intro f hfa hf
    subst hfa
    obtain ⟨j, hj, hjm⟩ := addFamsIfKnown_self_mem t (some f, mother) f hf
    rw [ht]
    exact addFamsIfKnown_mem_fams _ mother _ f j hj hjm
  · intro m hmo hm
    subst hmo
    rw [ht]
    have hm2 : (alookup m (t.addFamsIfKnown father (father, some m)).indi).isSome = true := by
      rw [addFamsIfKnown_isSome]; exact hm
    exact addFamsIfKnown_self_mem (t.addFamsIfKnown father (father, some m))
      (father, some m) m hm2

theorem C10_add_trio_unknown_child_witness :
    (({ indi := [("F", { num := 1 })] } : FSTree).memI (some "C") = false ∧
        ((({ indi := [("F", { num := 1 })] } : FSTree).memI (some "F") ||
          ({ indi := [("F", { num := 1 })] } : FSTree).memI none) = true)) ∧
      ((({ indi := [("F", { num := 1 })] } : FSTree).add_trio (some "F") none
          (some "C")).fam = ({ indi := [("F", { num := 1 })] } : FSTree).fam ∧
        (∀ k : String,
          (alookup k (({ indi := [("F", { num := 1 })] } : FSTree).add_trio (some "F")
              none (some "C")).indi).map IndiR.famc_fid
            = (alookup k ({ indi := [("F", { num := 1 })] } : FSTree).indi).map
                IndiR.famc_fid) ∧
        (∀ f : String, (some "F" : OStr) = some f →
          (alookup f ({ indi := [("F", { num := 1 })] } : FSTree).indi).isSome = true →
          ∃ i, alookup f (({ indi := [("F", { num := 1 })] } : FSTree).add_trio
              (some "F") none (some "C")).indi = some i ∧
            ((some "F" : OStr), (none : OStr)) ∈ i.fams_fid) ∧
        (∀ m : String, (none : OStr) = some m →
          (alookup m ({ indi := [("F", { num := 1 })] } : FSTree).indi).isSome = true →
          ∃ i, alookup m (({ indi := [("F", { num := 1 })] } : FSTree).add_trio
              (some "F") none (some "C")).indi = some i ∧
            ((some "F" : OStr), (none : OStr)) ∈ i.fams_fid)) :=
  ⟨⟨by decide, by decide⟩,
    C10_add_trio_unknown_child { indi := [("F", { num := 1 })] } (some "F") none
      (some "C") (by decide) (by decide)⟩

/-! ## Invariants of batch acquisition -/

theorem foldl_inv {σ α : Type _} (P : σ → Prop) (step : σ → α → σ) (l : List α)
    (init : σ) (h0 : P init) (hstep : ∀ s x, P s → P (step s x)) :
    P (l.foldl step init) := by
  induction l generalizing init with
  | nil => exact h0
  | cons a as ih => exact ih _ (hstep _ _ h0)

theorem alookup_aset_general {κ β : Type} [DecidableEq κ] (k k' : κ) (v : β)
    (l : List (κ × β)) :
    alookup k (aset k' v l) = if k = k' then some v else alookup k l := by
  induction l with
  | nil => by_cases h : k = k' <;> simp [aset, alookup, h]
  | cons p rest ih =>
    obtain ⟨k0, v0⟩ := p
    by_cases h1 : k' = k0
    · subst h1
      by_cases h2 : k = k' <;> simp [aset, alookup, h2]
    · by_cases h2 : k = k0
      · subst h2
        have h3 : ¬ k = k' := fun h => h1 h.symm
        simp [aset, alookup, h1, h3]
      · by_cases h3 : k = k' <;> simp [aset, alookup, h1, h2, h3, ih, alookup_aset]

theorem mem_keys_aset {κ β : Type} [DecidableEq κ] (k k' : κ) (v : β)
    (l : List (κ × β)) :
    k' ∈ (aset k v l).map Prod.fst ↔ k' = k ∨ k' ∈ l.map Prod.fst := by
  induction l with
  | nil => simp [aset]
  | cons p rest ih =>
    obtain ⟨k0, v0⟩ := p
    by_cases h1 : k = k0
    · subst h1
      have heq : aset k v ((k, v0) :: rest) = (k, v) :: rest := by simp [aset]
      rw [heq]
      simp only [List.map_cons, List.mem_cons]
      tauto
    · simp only [aset, if_neg h1, List.map_cons, List.mem_cons, ih]
      tauto

theorem aupdate_keys {κ β : Type} [DecidableEq κ] (k : κ) (f : β → β)
    (l : List (κ × β)) :
    (aupdate k f l).map Prod.fst = l.map Prod.fst := by
  induction l with
  | nil => rfl
  | cons p rest ih =>
    obtain ⟨k0, v0⟩ := p
    by_cases h : k = k0 <;> simp [aupdate, h, ih]

theorem aset_keys_nodup {κ β : Type} [DecidableEq κ] (k : κ) (v : β)
    (l : List (κ × β)) (h : (l.map Prod.fst).Nodup) :
    ((aset k v l).map Prod.fst).Nodup := by
  induction l with
  | nil => simp [aset]
  | cons p rest ih =>
    obtain ⟨k0, v0⟩ := p
    simp only [List.map_cons, List.nodup_cons] at h
    by_cases h1 : k = k0
    · subst h1
      have heq : aset k v ((k, v0) :: rest) = (k, v) :: rest := by simp [aset]
      rw [heq]
      simp only [List.map_cons, List.nodup_cons]
      exact h
    · simp only [aset, h1, if_false, List.map_cons, List.nodup_cons]
      refine ⟨?_, ih h.2⟩
      rw [mem_keys_aset]
      rintro (hh | hh)
      · exact h1 hh.symm
      · exact h.1 hh

theorem alookup_isSome_iff_mem_keys {κ β : Type} [DecidableEq κ] (k : κ)
    (l : List (κ × β)) :
    (alookup k l).isSome = true ↔ k ∈ l.map Prod.fst := by
  induction l with
  | nil => simp [alookup]
  | cons p rest ih =>
    obtain ⟨k0, v0⟩ := p
    by_cases h : k = k0 <;> simp [alookup, h, ih]

theorem countP_keys_eq_one {κ β : Type} [DecidableEq κ] (k : κ) (l : List (κ × β))
    (hnd : (l.map Prod.fst).Nodup) (h : (alookup k l).isSome = true) :
    l.countP (fun p => p.1 = k) = 1 := by
  induction l with
  | nil => simp [alookup] at h
  | cons p rest ih =>
    obtain ⟨k0, v0⟩ := p
    simp only [List.map_cons, List.nodup_cons] at hnd
    by_cases hk : k = k0
    · subst hk
      have h0 : rest.countP (fun p => p.1 = k) = 0 := by
        rw [List.countP_eq_zero]
        intro a ha
        simp only [decide_eq_true_eq]
        intro hak
        exact hnd.1 (hak ▸ List.mem_map_of_mem Prod.fst ha)
      simp [List.countP_cons, h0]
    · have h' : (alookup k rest).isSome = true := by
        simpa [alookup, hk] using h
      have hne : ¬ (k0 = k) := fun hh => hk hh.symm
      simp [List.countP_cons, hk, hne, ih hnd.2 h']

theorem newNote_indi (t : FSTree) (s : String) : (newNote t s).1.indi = t.indi := rfl

theorem nameInit_indi (t : FSTree) (d : NameData) : (nameInit t d).1.indi = t.indi := by
  cases h : d.changeMessage <;> simp [nameInit, h, newNote]

theorem factInit_indi (env : TextEnv) (t : FSTree) (d : FactData) :
    (factInit env t d).1.indi = t.indi := by
  cases h : d.changeMessage <;> simp [factInit, h, newNote]

theorem sourceInit_indi (t : FSTree) (d : SourceData) :
    (sourceInit t d).1.indi = t.indi := by
  unfold sourceInit
  exact foldl_inv (fun acc : FSTree × List Nat => acc.1.indi = t.indi) _ _ _ rfl
    (fun s x hs => by
      dsimp only
      split_ifs with h
      · simpa [newNote] using hs
      · exact hs)

theorem addNameRec_indi (acc : FSTree × IndiR) (nd : NameData) :
    (addNameRec acc nd).1.indi = acc.1.indi := by
  obtain ⟨t, i⟩ := acc
  unfold addNameRec
  dsimp only
  split_ifs <;> simp [nameInit_indi]

theorem addFactRec_indi (tx : TextEnv) (acc : FSTree × IndiR) (fd : FactData) :
    (addFactRec tx acc fd).1.indi = acc.1.indi := by
  obtain ⟨t, i⟩ := acc
  unfold addFactRec
  dsimp only
  split_ifs <;> simp [factInit_indi, newNote]

theorem addSourceRec_indi (q : List (String × Option String)) (acc : FSTree × IndiR)
    (src : SourceData) : (addSourceRec q acc src).1.indi = acc.1.indi := by
  obtain ⟨t, i⟩ := acc
  unfold addSourceRec
  dsimp only
  split_ifs <;> simp [sourceInit_indi]

theorem addMemorieRec_indi (acc : FSTree × IndiR) (x : MemorieData) :
    (addMemorieRec acc x).1.indi = acc.1.indi := by
  obtain ⟨t, i⟩ := acc
  unfold addMemorieRec
  dsimp only
  split_ifs <;> simp [newNote]

theorem namesFold_indi (ns : List NameData) (acc : FSTree × IndiR) :
    (ns.foldl addNameRec acc).1.indi = acc.1.indi :=
  foldl_inv (fun s => s.1.indi = acc.1.indi) _ _ _ rfl
    (fun s x hs => (addNameRec_indi s x).trans hs)

theorem factsFold_indi (tx : TextEnv) (fds : List FactData) (acc : FSTree × IndiR) :
    (fds.foldl (addFactRec tx) acc).1.indi = acc.1.indi :=
  foldl_inv (fun s => s.1.indi = acc.1.indi) _ _ _ rfl
    (fun s x hs => (addFactRec_indi tx s x).trans hs)

theorem sourcesFold_indi (q : List (String × Option String)) (ds : List SourceData)
    (acc : FSTree × IndiR) : (ds.foldl (addSourceRec q) acc).1.indi = acc.1.indi :=
  foldl_inv (fun s => s.1.indi = acc.1.indi) _ _ _ rfl
    (fun s x hs => (addSourceRec_indi q s x).trans hs)

theorem memsFold_indi (ds : List MemorieData) (acc : FSTree × IndiR) :
    (ds.foldl addMemorieRec acc).1.indi = acc.1.indi :=
  foldl_inv (fun s => s.1.indi = acc.1.indi) _ _ _ rfl
    (fun s x hs => (addMemorieRec_indi s x).trans hs)

theorem addDataGender_indi (g : Option String) (acc : FSTree × IndiR) :
    (addDataGender g acc).1.indi = acc.1.indi := by
  unfold addDataGender
  split <;> try rfl
  split_ifs <;> rfl

theorem addDataFacts_indi (tx : TextEnv) (fs : Option (List FactData))
    (acc : FSTree × IndiR) : (addDataFacts tx fs acc).1.indi = acc.1.indi := by
  unfold addDataFacts
  cases fs with
  | none => rfl
  | some fds => exact factsFold_indi tx fds acc

theorem addDataSources_indi (env : FSEnv) (b : Bool) (acc : FSTree × IndiR) :
    (addDataSources env b acc).1.indi = acc.1.indi := by
  unfold addDataSources
  cases b with
  | false => rfl
  | true =>
    cases h : env.fetchSources (acc.2.fid.getD "") with
    | none => rfl
    | some sd => exact sourcesFold_indi sd.quotes sd.descriptions acc

theorem addDataMemories_indi (env : FSEnv) (b : Bool) (acc : FSTree × IndiR) :
    (addDataMemories env b acc).1.indi = acc.1.indi := by
  unfold addDataMemories
  cases b with
  | false => rfl
  | true =>
    cases h : env.fetchMemories (acc.2.fid.getD "") with
    | none => rfl
    | some md => exact memsFold_indi md.descriptions acc

theorem addData_indi (env : FSEnv) (t : FSTree) (i : IndiR) (d : Option PersonData) :
    (addData env t i d).1.indi = t.indi := by
  cases d with
  | none => rfl
  | some d =>
    unfold addData
    rw [addDataMemories_indi, addDataSources_indi, addDataFacts_indi,
      addDataGender_indi, namesFold_indi]

theorem addPlaceRec_indi (t : FSTree) (pl : String × (String × String)) :
    (t.addPlaceRec pl).indi = t.indi := by
  unfold FSTree.addPlaceRec
  split <;> rfl

theorem placesFold_indi (pls : List (String × (String × String))) (t : FSTree) :
    (pls.foldl FSTree.addPlaceRec t).indi = t.indi :=
  foldl_inv (fun s => s.indi = t.indi) _ _ _ rfl
    (fun s x hs => (addPlaceRec_indi s x).trans hs)

theorem addPersonRec_indi_eq (env : FSEnv) (t : FSTree) (pd : String × PersonData) :
    (t.addPersonRec env pd).indi =
      aset pd.1 (addData env { t with indic := t.indic + 1 }
        { num := t.indic + 1, fid := some pd.1 } (some pd.2)).2 t.indi := by
  unfold FSTree.addPersonRec
  dsimp only
  rw [addData_indi]

theorem addPersonRec_keys_nodup (env : FSEnv) (t : FSTree) (pd : String × PersonData)
    (h : (t.indi.map Prod.fst).Nodup) :
    ((t.addPersonRec env pd).indi.map Prod.fst).Nodup := by
  rw [addPersonRec_indi_eq]
  exact aset_keys_nodup _ _ _ h

theorem mem_keys_addPersonRec (env : FSEnv) (t : FSTree) (pd : String × PersonData)
    (x : String) :
    x ∈ (t.addPersonRec env pd).indi.map Prod.fst ↔
      x = pd.1 ∨ x ∈ t.indi.map Prod.fst := by
  rw [addPersonRec_indi_eq]
  exact mem_keys_aset _ _ _ _

theorem personsFold_nodup (env : FSEnv) (ps : List (String × PersonData)) (t : FSTree)
    (h : (t.indi.map Prod.fst).Nodup) :
    (((ps.foldl (fun t pd => t.addPersonRec env pd) t).indi).map Prod.fst).Nodup :=
  foldl_inv (fun s => (s.indi.map Prod.fst).Nodup) _ _ _ h
    (fun s x hs => addPersonRec_keys_nodup env s x hs)

theorem mem_keys_personsFold (env : FSEnv) (ps : List (String × PersonData))
    (t : FSTree) (x : String)
    (h : x ∈ ps.map Prod.fst ∨ x ∈ t.indi.map Prod.fst) :
    x ∈ ((ps.foldl (fun t pd => t.addPersonRec env pd) t).indi).map Prod.fst := by
  induction ps generalizing t with
  | nil =>
    rcases h with h | h
    · simp at h
    · exact h
  | cons p rest ih =>
    simp only [List.foldl_cons]
    rcases h with h | h
    · simp only [List.map_cons, List.mem_cons] at h
      rcases h with h | h
      · exact ih _ (Or.inr ((mem_keys_addPersonRec env t p x).mpr (Or.inl h)))
      · exact ih _ (Or.inl h)
    · exact ih _ (Or.inr ((mem_keys_addPersonRec env t p x).mpr (Or.inr h)))

theorem addParentChildRec_keys (t : FSTree) (rel : OStr × OStr × OStr) :
    (t.addParentChildRec rel).indi.map Prod.fst = t.indi.map Prod.fst := by
  obtain ⟨father, mother, child⟩ := rel
  unfold FSTree.addParentChildRec
  dsimp only
  cases child <;> cases father <;> cases mother <;> dsimp only <;>
    split_ifs <;> simp [aupdate_keys]

theorem addCoupleRec_keys (t : FSTree) (rel : CoupleRel) :
    (t.addCoupleRec rel).indi.map Prod.fst = t.indi.map Prod.fst := by
  unfold FSTree.addCoupleRec
  split_ifs <;> try simp only [aupdate_keys]
  all_goals split_ifs <;> simp [aupdate_keys]

theorem relsFold_keys (rels : List (OStr × OStr × OStr)) (t : FSTree) :
    ((rels.foldl FSTree.addParentChildRec t).indi).map Prod.fst
      = t.indi.map Prod.fst :=
  foldl_inv (fun s => s.indi.map Prod.fst = t.indi.map Prod.fst) _ _ _ rfl
    (fun s x hs => (addParentChildRec_keys s x).trans hs)

theorem couplesFold_keys (rels : List CoupleRel) (t : FSTree) :
    ((rels.foldl FSTree.addCoupleRec t).indi).map Prod.fst = t.indi.map Prod.fst :=
  foldl_inv (fun s => s.indi.map Prod.fst = t.indi.map Prod.fst) _ _ _ rfl
    (fun s x hs => (addCoupleRec_keys s x).trans hs)

theorem processBatch_keys_nodup (env : FSEnv) (t : FSTree) (data : BatchData)
    (h : (t.indi.map Prod.fst).Nodup) :
    ((t.processBatch env data).indi.map Prod.fst).Nodup := by
  unfold FSTree.processBatch
  rw [couplesFold_keys, relsFold_keys]
  exact personsFold_nodup env _ _ (by rw [placesFold_indi]; exact h)

theorem mem_keys_processBatch (env : FSEnv) (t : FSTree) (data : BatchData) (x : String)
    (h : x ∈ data.persons.map Prod.fst ∨ x ∈ t.indi.map Prod.fst) :
    x ∈ (t.processBatch env data).indi.map Prod.fst := by
  unfold FSTree.processBatch
  rw [couplesFold_keys, relsFold_keys]
  refine mem_keys_personsFold env _ _ x ?_
  rw [placesFold_indi]
  exact h

theorem add_indis_known (env : FSEnv) (t : FSTree) (x : String)
    (h : (alookup x t.indi).isSome = true) :
    t.add_indis env [some x] = t := by
  unfold FSTree.add_indis
  have hne : alookup x t.indi ≠ none := by
    intro hh
    rw [hh] at h
    simp at h
  simp [List.filterMap, hne, addIndisChunks]

theorem add_indis_new (env : FSEnv) (t : FSTree) (x : String) (b : BatchData)
    (hx : x ≠ "") (hnone : alookup x t.indi = none)
    (hb : env.fetchBatch [x] = some b) :
    t.add_indis env [some x] = t.processBatch env b := by
  unfold FSTree.add_indis
  have h1 : ([some x] : List OStr).filterMap (fun o =>
      match o with
      | some f => if f ≠ "" ∧ alookup f t.indi = none then some f else none
      | none => none) = [x] := by
    simp [List.filterMap, hx, hnone]
  rw [h1]
  show addIndisChunks env 1 t [x] = t.processBatch env b
  unfold addIndisChunks
  have htake : ([x] : List String).take MAX_PERSONS = [x] := rfl
  have hdrop : ([x] : List String).drop MAX_PERSONS = [] := rfl
  rw [htake, hdrop, hb]
  rfl

/-- C4.  Adding the same external id twice is idempotent: after the first
`add_indis([x])` the store holds exactly one Individual entry for `x`
(provided the batch fetch returns a record for `x`), and the second call is a
no-op for every possible fetch environment — it does not create, replace or
re-fetch anything. -/
theorem C4_add_indis_idempotent (env : FSEnv) (t : FSTree) (x : String) (b : BatchData)
    (hx : x ≠ "") (hnodup : (t.indi.map Prod.fst).Nodup)
    (hb : env.fetchBatch [x] = some b) (hxb : x ∈ b.persons.map Prod.fst) :
    (alookup x (t.add_indis env [some x]).indi).isSome = true ∧
      (t.add_indis env [some x]).indi.countP (fun p => p.1 = x) = 1 ∧
      ∀ env2 : FSEnv, (t.add_indis env [some x]).add_indis env2 [some x]
        = t.add_indis env [some x] := by
  by_cases h0 : (alookup x t.indi).isSome = true
  · have ht1 : t.add_indis env [some x] = t := add_indis_known env t x h0
    rw [ht1]
    exact ⟨h0, countP_keys_eq_one x t.indi hnodup h0,
      fun env2 => add_indis_known env2 t x h0⟩
  · have hnone : alookup x t.indi = none := by
      cases hh : alookup x t.indi with
      | none => rfl
      | some v => rw [hh] at h0; simp at h0
    have ht1 : t.add_indis env [some x] = t.processBatch env b :=
      add_indis_new env t x b hx hnone hb
    have hmem : x ∈ (t.processBatch env b).indi.map Prod.fst :=
      mem_keys_processBatch env t b x (Or.inl hxb)
    have hsome : (alookup x (t.processBatch env b).indi).isSome = true :=
      (alookup_isSome_iff_mem_keys x _).mpr hmem
    have hnd : ((t.processBatch env b).indi.map Prod.fst).Nodup :=
      processBatch_keys_nodup env t b hnodup
    rw [ht1]
    exact ⟨hsome, countP_keys_eq_one x _ hnd hsome,
      fun env2 => add_indis_known env2 _ x hsome⟩

theorem C4_add_indis_idempotent_witness :
    let env : FSEnv :=
      { text := ⟨id, id⟩
        fetchBatch := fun _ => some { persons := [("X", {})] }
        fetchSources := fun _ => none
        fetchMemories := fun _ => none }
    (("X" : String) ≠ "" ∧ ((({} : FSTree).indi.map Prod.fst).Nodup) ∧
        env.fetchBatch ["X"] = some { persons := [("X", {})] } ∧
        "X" ∈ ({ persons := [("X", {})] } : BatchData).persons.map Prod.fst) ∧
      ((alookup "X" (({} : FSTree).add_indis env [some "X"]).indi).isSome = true ∧
        (({} : FSTree).add_indis env [some "X"]).indi.countP (fun p => p.1 = "X") = 1 ∧
        ∀ env2 : FSEnv,
          (({} : FSTree).add_indis env [some "X"]).add_indis env2 [some "X"]
            = ({} : FSTree).add_indis env [some "X"]) :=
  ⟨⟨by decide, by decide, rfl, by decide⟩,
    C4_add_indis_idempotent _ {} "X" { persons := [("X", {})] } (by decide) (by decide)
      rfl (by decide)⟩

/-- C3.  Both generation loops execute at most their generation limit many
iterations, for every seed frontier, every `done` set and every fetch
environment — in particular for relationship data containing cycles; the
loop functions are total, so termination holds unconditionally. -/
theorem C3_frontier_loops_bounded (env : FSEnv) (n : Nat) (t : FSTree)
    (todo done : List String) :
    ascendSteps env n t todo done ≤ n ∧ descendSteps env n t todo done ≤ n := by
  constructor
  · induction n generalizing t todo done with
    | zero => simp [ascendSteps]
    | succ n ih =>
      unfold ascendSteps
      split_ifs
      · omega
      · exact Nat.succ_le_succ (ih _ _ _)
  · induction n generalizing t todo done with
    | zero => simp [descendSteps]
    | succ n ih =>
      unfold descendSteps
      split_ifs
      · omega
      · exact Nat.succ_le_succ (ih _ _ _)

/-! ## What add_parents returns (C5) -/

theorem mem_sinsert {α : Type} [DecidableEq α] (a b : α) (l : List α) :
    a ∈ sinsert b l ↔ a = b ∨ a ∈ l := by
  by_cases h : b ∈ l
  · simp only [sinsert, h, if_true]
    constructor
    · exact Or.inr
    · rintro (rfl | hh)
      · exact h
      · exact hh
  · simp only [sinsert, h, if_false, List.mem_append, List.mem_singleton]
    tauto

theorem mem_couplesFold (cpls : List (OStr × OStr)) (acc : List OStr) (o : OStr) :
    o ∈ cpls.foldl (fun acc cpl => sinsert cpl.2 (sinsert cpl.1 acc)) acc ↔
      o ∈ acc ∨ ∃ cpl ∈ cpls, o = cpl.1 ∨ o = cpl.2 := by
  induction cpls generalizing acc with
  | nil => simp
  | cons c cs ih =>
    simp only [List.foldl_cons, ih, mem_sinsert, List.mem_cons]
    constructor
    · rintro ((h | h | h) | ⟨cpl, hc, h⟩)
      · exact Or.inr ⟨c, Or.inl rfl, Or.inr h⟩
      · exact Or.inr ⟨c, Or.inl rfl, Or.inl h⟩
      · exact Or.inl h
      · exact Or.inr ⟨cpl, Or.inr hc, h⟩
    · rintro (h | ⟨cpl, (rfl | hc), h⟩)
      · exact Or.inl (Or.inr (Or.inr h))
      · rcases h with h | h
        · exact Or.inl (Or.inr (Or.inl h))
        · exact Or.inl (Or.inl h)
      · exact Or.inr ⟨cpl, hc, h⟩

theorem mem_collectParents (t : FSTree) (fids : List String) (o : OStr) :
    o ∈ collectParents t fids ↔
      ∃ fid ∈ fids, ∃ ind, alookup fid t.indi = some ind ∧
        ∃ cpl ∈ ind.parents, o = cpl.1 ∨ o = cpl.2 := by
  have haux : ∀ (fs : List String) (acc : List OStr),
      o ∈ fs.foldl (fun acc fid =>
        match alookup fid t.indi with
        | some ind =>
          ind.parents.foldl (fun acc cpl => sinsert cpl.2 (sinsert cpl.1 acc)) acc
        | none => acc) acc ↔
      o ∈ acc ∨ ∃ fid ∈ fs, ∃ ind, alookup fid t.indi = some ind ∧
        ∃ cpl ∈ ind.parents, o = cpl.1 ∨ o = cpl.2 := by
    intro fs
    induction fs with
    | nil => simp
    | cons f fs ih =>
      intro acc
      simp only [List.foldl_cons]
      cases hf : alookup f t.indi with
      | none =>
        rw [ih]
        simp only [List.mem_cons]
        constructor
        · rintro (h | ⟨fid, hm, rest⟩)
          · exact Or.inl h
          · exact Or.inr ⟨fid, Or.inr hm, rest⟩
        · rintro (h | ⟨fid, (rfl | hm), ind, hind, rest⟩)
          · exact Or.inl h
          · rw [hf] at hind
            cases hind
          · exact Or.inr ⟨fid, hm, ind, hind, rest⟩
      | some ind =>
        rw [ih, mem_couplesFold]
        simp only [List.mem_cons]
        constructor
        · rintro ((h | h) | ⟨fid, hm, rest⟩)
          · exact Or.inl h
          · exact Or.inr ⟨f, Or.inl rfl, ind, hf, h⟩
          · exact Or.inr ⟨fid, Or.inr hm, rest⟩
        · rintro (h | ⟨fid, (rfl | hm), ind', hind, rest⟩)
          · exact Or.inl (Or.inl h)
          · rw [hf] at hind
            cases hind
            exact Or.inl (Or.inr rest)
          · exact Or.inr ⟨fid, hm, ind', hind, rest⟩
  unfold collectParents
  rw [haux]
  simp

/-- C5, amended.  The claim says `add_parents` returns the set of parent ids
that were newly fetched during the call.  The code returns
`set(filter(None, parents))` where `parents` collects every parent id of the
frontier — whether or not that parent was already present in the store.  The
amended statement proved here: the returned set contains exactly the
non-falsy parent ids appearing in the parent couples of frontier members
known at the start of the call. -/
theorem C5_add_parents_returns_amended (env : FSEnv) (t : FSTree)
    (fids : List String) (p : String) :
    p ∈ (t.add_parents env fids).2 ↔
      (p ≠ "" ∧ ∃ fid ∈ fids, ∃ ind, alookup fid t.indi = some ind ∧
        ∃ cpl ∈ ind.parents, some p = cpl.1 ∨ some p = cpl.2) := by
  have hres : (t.add_parents env fids).2 = (collectParents t fids).filterMap fun o =>
      match o with
      | some s => if s ≠ "" then some s else none
      | none => none := rfl
  rw [hres, List.mem_filterMap]
  constructor
  · rintro ⟨o, ho, hfo⟩
    cases o with
    | none => simp at hfo
    | some s =>
      by_cases hs : s ≠ ""
      · simp only at hfo
        rw [if_pos hs] at hfo
        obtain rfl : s = p := Option.some.inj hfo
        exact ⟨hs, (mem_collectParents t fids (some s)).mp ho⟩
      · simp only at hfo
        simp [hs] at hfo
  · rintro ⟨hp, hrest⟩
    refine ⟨some p, (mem_collectParents t fids (some p)).mpr hrest, ?_⟩
    simp [hp]

/-- C5, counterexample.  In a store where individual `A` (with recorded
parent couple `(B, None)`) and individual `B` are both already present,
`add_parents(\x7bA\x7d)` returns `\x7bB\x7d` even though nothing was fetched during
the call (the environment answers no request) and `B` was present before the
call — refuting the claim that only newly-fetched, previously-absent ids are
returned. -/
theorem C5_add_parents_counterexample :
    let t : FSTree :=
      { indi := [("A", { num := 1, parents := [(some "B", none)] }),
                 ("B", { num := 2 })] }
    let env : FSEnv :=
      { text := ⟨id, id⟩, fetchBatch := fun _ => none
        fetchSources := fun _ => none, fetchMemories := fun _ => none }
    (alookup "B" t.indi).isSome = true ∧
      (t.add_parents env ["A"]).2 = ["B"] ∧ "B" ∈ (t.add_parents env ["A"]).2 := by
  refine ⟨by decide, by decide, by decide⟩

theorem charsLe_antisymm : ∀ a b : List Char,
    charsLe a b = true → charsLe b a = true → a = b
  | [], [], _, _ => rfl
  | [], _ :: _, _, hba => by simp [charsLe] at hba
  | _ :: _, [], hab, _ => by simp [charsLe] at hab
  | x :: xs, y :: ys, hab, hba => by
    simp only [charsLe] at hab hba
    by_cases h1 : x.toNat < y.toNat
    · have h2 : ¬ y.toNat < x.toNat := by omega
      simp [h1, h2] at hba
    · by_cases h2 : y.toNat < x.toNat
      · simp [h1, h2] at hab
      · have hxy : x = y := by
          have hnat : x.toNat = y.toNat := by omega
          exact Char.ext (UInt32.ext hnat)
        simp only [h1, if_false, h2, if_false] at hab hba
        rw [hxy, charsLe_antisymm xs ys hab hba]

theorem dedupAdjNum_subset (l : List MNote) :
    ∀ (prev : MNote), ∀ m ∈ dedupAdjNum prev l, m ∈ l := by
  induction l with
  | nil => intro prev m hm; simp [dedupAdjNum] at hm
  | cons n rest ih =>
    intro prev m hm
    simp only [dedupAdjNum, List.mem_append] at hm
    rcases hm with hm | hm
    · by_cases h : n.num = prev.num
      · simp [h] at hm
      · simp only [h, if_false, List.mem_singleton] at hm
        exact hm ▸ List.mem_cons_self n rest
    · exact List.mem_cons_of_mem n (ih n m hm)

theorem pairwise_num_head (n : MNote) (rest : List MNote)
    (hp : (n :: rest).Pairwise (fun a b => a.num ≤ b.num)) :
    ∀ m ∈ rest, n.num ≤ m.num :=
  (List.pairwise_cons.mp hp).1

theorem dedupAdjNum_ne_prev (l : List MNote) :
    ∀ (prev : MNote), (prev :: l).Pairwise (fun a b => a.num ≤ b.num) →
      ∀ m ∈ dedupAdjNum prev l, m.num ≠ prev.num := by
  induction l with
  | nil => intro prev _ m hm; simp [dedupAdjNum] at hm
  | cons n rest ih =>
    intro prev hp m hm
    have hpn : prev.num ≤ n.num := pairwise_num_head prev (n :: rest) hp n
      (List.mem_cons_self n rest)
    have hp' : (n :: rest).Pairwise (fun a b => a.num ≤ b.num) := hp.of_cons
    simp only [dedupAdjNum, List.mem_append] at hm
    by_cases h : n.num = prev.num
    · rcases hm with hm | hm
      · simp [h] at hm
      · have := ih n hp' m hm
        omega
    · rcases hm with hm | hm
      · simp only [h, if_false, List.mem_singleton] at hm
        subst hm
        exact h
      · have hnm : n.num ≤ m.num :=
          pairwise_num_head n rest hp' m (dedupAdjNum_subset rest n m hm)
        omega

theorem countP_dedupAdjNum_eq_one (l : List MNote) :
    ∀ (prev : MNote) (ν : Nat),
      (prev :: l).Pairwise (fun a b => a.num ≤ b.num) →
      ν ≠ prev.num → (∃ m ∈ l, m.num = ν) →
      (dedupAdjNum prev l).countP (fun m => m.num = ν) = 1 := by
  induction l with
  | nil =>
    intro prev ν _ _ hex
    obtain ⟨m, hm, _⟩ := hex
    simp at hm
  | cons n rest ih =>
    intro prev ν hp hν hex
    have hp' : (n :: rest).Pairwise (fun a b => a.num ≤ b.num) := hp.of_cons
    simp only [dedupAdjNum, List.countP_append]
    by_cases h : n.num = prev.num
    · have heq : (if n.num = prev.num then ([] : List MNote) else [n]) = [] := by
        simp [h]
      rw [heq]
      simp only [List.countP_nil, Nat.zero_add]
      obtain ⟨m, hm, hmν⟩ := hex
      rcases List.mem_cons.mp hm with rfl | hm'
      · exact absurd (hmν.symm.trans h) (fun hh => hν hh)
      · exact ih n ν hp' (fun hh => hν (hh.trans h)) ⟨m, hm', hmν⟩
    · have heq : (if n.num = prev.num then ([] : List MNote) else [n]) = [n] := by
        simp [h]
      rw [heq]
      simp only [List.countP_cons, List.countP_nil, Nat.zero_add]
      by_cases hn : n.num = ν
      · have hzero : (dedupAdjNum n rest).countP (fun m => m.num = ν) = 0 := by
          rw [List.countP_eq_zero]
          intro m hm
          simp only [decide_eq_true_eq]
          intro hmν
          exact dedupAdjNum_ne_prev rest n hp' m hm (hmν.trans hn.symm)
        simp [hzero, hn]
      · obtain ⟨m, hm, hmν⟩ := hex
        rcases List.mem_cons.mp hm with rfl | hm'
        · exact absurd hmν hn
        · have hone := ih n ν hp' (fun hh => hn hh.symm) ⟨m, hm', hmν⟩
          have hdec : (decide (n.num = ν)) = false := by simp [hn]
          simp [hone, hdec]

theorem countP_firstOfRuns (s : List MNote)
    (hp : s.Pairwise (fun a b => a.num ≤ b.num)) (ν : Nat)
    (hex : ∃ m ∈ s, m.num = ν) :
    (firstOfRuns s).countP (fun m => m.num = ν) = 1 := by
  cases s with
  | nil =>
    obtain ⟨m, hm, _⟩ := hex
    simp at hm
  | cons n rest =>
    simp only [firstOfRuns, List.countP_cons]
    by_cases hn : n.num = ν
    · have hzero : (dedupAdjNum n rest).countP (fun m => m.num = ν) = 0 := by
        rw [List.countP_eq_zero]
        intro m hm
        simp only [decide_eq_true_eq]
        intro hmν
        exact dedupAdjNum_ne_prev rest n hp m hm (hmν.trans hn.symm)
      simp [hzero, hn]
    · obtain ⟨m, hm, hmν⟩ := hex
      rcases List.mem_cons.mp hm with rfl | hm'
      · exact absurd hmν hn
      · have hone := countP_dedupAdjNum_eq_one rest n ν hp (fun hh => hn hh.symm)
          ⟨m, hm', hmν⟩
        have hdec : (decide (n.num = ν)) = false := by simp [hn]
        simp [hone, hdec]

theorem firstOfRuns_subset (s : List MNote) : ∀ m ∈ firstOfRuns s, m ∈ s := by
  cases s with
  | nil => intro m hm; simp [firstOfRuns] at hm
  | cons n rest =>
    intro m hm
    rcases List.mem_cons.mp hm with rfl | hm'
    · exact List.mem_cons_self m rest
    · exact List.mem_cons_of_mem n (dedupAdjNum_subset rest n m hm')

theorem textLe_antisymm (a b : String) (hab : textLe a b = true)
    (hba : textLe b a = true) : a = b :=
  String.ext (charsLe_antisymm a.data b.data hab hba)

theorem renumberAux_text_origin (l : List MNote) :
    ∀ (pt : String) (pn : Nat), ∀ m ∈ renumberAux pt pn l, ∃ m0 ∈ l, m.text = m0.text := by
  induction l with
  | nil => intro pt pn m hm; simp [renumberAux] at hm
  | cons n rest ih =>
    intro pt pn m hm
    simp only [renumberAux] at hm
    rcases List.mem_cons.mp hm with rfl | hm'
    · exact ⟨n, List.mem_cons_self n rest, rfl⟩
    · obtain ⟨m0, hm0, he⟩ := ih n.text _ m hm'
      exact ⟨m0, List.mem_cons_of_mem n hm0, he⟩

theorem renumberAux_spec (l : List MNote) :
    ∀ (pt : String) (pn : Nat),
      l.Pairwise (fun a b => textLe a.text b.text = true) →
      (∀ m ∈ l, textLe pt m.text = true) →
      (∀ m ∈ renumberAux pt pn l, pn ≤ m.num) ∧
        (∀ m ∈ renumberAux pt pn l, (m.text = pt ↔ m.num = pn)) ∧
        (∀ m1 ∈ renumberAux pt pn l, ∀ m2 ∈ renumberAux pt pn l,
          (m1.text = m2.text ↔ m1.num = m2.num)) := by
  induction l with
  | nil =>
    intro pt pn _ _
    refine ⟨?_, ?_, ?_⟩ <;> simp [renumberAux]
  | cons n rest ih =>
    intro pt pn hsorted hlb
    have hsorted' : rest.Pairwise (fun a b => textLe a.text b.text = true) :=
      hsorted.of_cons
    have hhead : ∀ m ∈ rest, textLe n.text m.text = true :=
      (List.pairwise_cons.mp hsorted).1
    obtain ⟨ihmono, ihprev, ihcoh⟩ :=
      ih n.text (if n.text = pt then pn else pn + 1) hsorted' hhead
    have hpn_le : pn ≤ (if n.text = pt then pn else pn + 1) := by
      split_ifs <;> omega
    have hnum1_eq : ((if n.text = pt then pn else pn + 1) = pn) ↔ (n.text = pt) := by
      by_cases h : n.text = pt
      · simp [h]
      · simp only [h, if_false, iff_false]
        omega
    have htext' : ∀ m ∈ renumberAux n.text (if n.text = pt then pn else pn + 1) rest,
        textLe n.text m.text = true := by
      intro m hm
      obtain ⟨m0, hm0, he⟩ := renumberAux_text_origin rest n.text _ m hm
      rw [he]
      exact hhead m0 hm0
    have hpt_n : textLe pt n.text = true := hlb n (List.mem_cons_self n rest)
    refine ⟨?_, ?_, ?_⟩
    · intro m hm
      simp only [renumberAux] at hm
      rcases List.mem_cons.mp hm with rfl | hm'
      · exact hpn_le
      · exact le_trans hpn_le (ihmono m hm')
    · intro m hm
      simp only [renumberAux] at hm
      rcases List.mem_cons.mp hm with rfl | hm'
      · exact Iff.trans (Iff.of_eq rfl) hnum1_eq.symm
      · constructor
        · intro hmt
          have h1 : textLe n.text pt = true := hmt ▸ htext' m hm'
          have hn_pt : n.text = pt := textLe_antisymm n.text pt h1 hpt_n
          have hnum1 : (if n.text = pt then pn else pn + 1) = pn := hnum1_eq.mpr hn_pt
          have := (ihprev m hm').mp (hmt.trans hn_pt.symm)
          rw [this, hnum1]
        · intro hmn
          have hge := ihmono m hm'
          rw [hmn] at hge
          have hnum1 : (if n.text = pt then pn else pn + 1) = pn := by omega
          have hn_pt : n.text = pt := hnum1_eq.mp hnum1
          have := (ihprev m hm').mpr (by rw [hmn, hnum1])
          rw [this, hn_pt]
    · intro m1 hm1 m2 hm2
      simp only [renumberAux] at hm1 hm2
      rcases List.mem_cons.mp hm1 with rfl | hm1' <;>
        rcases List.mem_cons.mp hm2 with h2 | hm2'
      · rw [h2]
        simp
      · have := ihprev m2 hm2'
        constructor
        · intro he
          rw [(this.mp he.symm)]
        · intro he
          rw [(this.mpr he.symm)]
      · have := ihprev m1 hm1'
        rw [h2] at *
        constructor
        · intro he
          rw [(this.mp he)]
        · intro he
          rw [(this.mpr he)]
      · exact ihcoh m1 hm1' m2 hm2'

theorem renumberNotes_coherent (ns : List MNote) :
    ∀ m1 ∈ renumberNotes ns, ∀ m2 ∈ renumberNotes ns,
      (m1.text = m2.text ↔ m1.num = m2.num) := by
  unfold renumberNotes
  cases hs : List.insertionSort noteTextRel ns with
  | nil => simp
  | cons n rest =>
    have hsorted0 : (n :: rest).Pairwise noteTextRel := by
      rw [← hs]
      exact List.sorted_insertionSort noteTextRel ns
    have hsorted' : rest.Pairwise (fun a b => textLe a.text b.text = true) :=
      hsorted0.of_cons
    have hhead : ∀ m ∈ rest, textLe n.text m.text = true :=
      (List.pairwise_cons.mp hsorted0).1
    obtain ⟨ihmono, ihprev, ihcoh⟩ := renumberAux_spec rest n.text 1 hsorted' hhead
    intro m1 hm1 m2 hm2
    simp only [] at hm1 hm2
    rcases List.mem_cons.mp hm1 with rfl | hm1' <;>
      rcases List.mem_cons.mp hm2 with h2 | hm2'
    · rw [h2]
      simp
    · have := ihprev m2 hm2'
      constructor
      · intro he
        rw [(this.mp he.symm)]
      · intro he
        rw [(this.mpr he.symm)]
    · have := ihprev m1 hm1'
      rw [h2] at *
      constructor
      · intro he
        rw [(this.mp he)]
      · intro he
        rw [(this.mpr he)]
    · exact ihcoh m1 hm1' m2 hm2'

/-- C7, amended.  The claim speaks of Notes with equal *trimmed* texts; the
merge code (`Merge.save`, classes.py lines 1567-1576) compares the raw texts,
and the decoder can produce untrimmed note texts, so the claim holds for
exact text equality: after merge renumbering any two Notes with equal texts
carry the same number, the printed note section contains exactly one record
with that text, and that record carries the shared number — so every entity
holding either Note prints a reference to that single record. -/
theorem C7_merge_note_collapse_amended (ns : List MNote) (n1 n2 : MNote)
    (h1 : n1 ∈ renumberNotes ns) (h2 : n2 ∈ renumberNotes ns)
    (heq : n1.text = n2.text) :
    n1.num = n2.num ∧
      (printedNotes (renumberNotes ns)).countP (fun m => m.text = n1.text) = 1 ∧
      ∃ m ∈ printedNotes (renumberNotes ns), m.text = n1.text ∧ m.num = n1.num := by
  have hcoh := renumberNotes_coherent ns
  have hnum : n1.num = n2.num := (hcoh n1 h1 n2 h2).mp heq
  have hperm : (List.insertionSort noteNumRel (renumberNotes ns)).Perm
      (renumberNotes ns) := List.perm_insertionSort noteNumRel (renumberNotes ns)
  have hsorted : (List.insertionSort noteNumRel (renumberNotes ns)).Pairwise
      (fun a b => a.num ≤ b.num) :=
    List.sorted_insertionSort noteNumRel (renumberNotes ns)
  have hmem1 : n1 ∈ List.insertionSort noteNumRel (renumberNotes ns) :=
    hperm.mem_iff.mpr h1
  have hcount_num : (firstOfRuns (List.insertionSort noteNumRel
      (renumberNotes ns))).countP (fun m => m.num = n1.num) = 1 :=
    countP_firstOfRuns _ hsorted n1.num ⟨n1, hmem1, rfl⟩
  have hsub : ∀ m ∈ firstOfRuns (List.insertionSort noteNumRel (renumberNotes ns)),
      m ∈ renumberNotes ns := fun m hm =>
    hperm.mem_iff.mp (firstOfRuns_subset _ m hm)
  have hcount : (printedNotes (renumberNotes ns)).countP
      (fun m => m.text = n1.text) = 1 := by
    show (firstOfRuns (List.insertionSort noteNumRel (renumberNotes ns))).countP
      (fun m => m.text = n1.text) = 1
    rw [List.countP_congr (fun m hm => ?_)]
    · exact hcount_num
    · simp only [decide_eq_true_eq]
      exact hcoh m (hsub m hm) n1 h1
  refine ⟨hnum, hcount, ?_⟩
  have hpos : 0 < (printedNotes (renumberNotes ns)).countP
      (fun m => m.text = n1.text) := by
    rw [hcount]
    omega
  obtain ⟨m, hm, hmp⟩ := List.countP_pos.mp hpos
  have hmt : m.text = n1.text := by simpa using hmp
  exact ⟨m, hm, hmt, (hcoh m (hsub m hm) n1 h1).mp hmt⟩

theorem C7_merge_note_collapse_amended_witness :
    let ns : List MNote := [⟨1, 5, "x"⟩, ⟨2, 9, "x"⟩]
    (⟨1, 1, "x"⟩ : MNote) ∈ renumberNotes ns ∧
      (⟨2, 1, "x"⟩ : MNote) ∈ renumberNotes ns ∧
      ((⟨1, 1, "x"⟩ : MNote).text = (⟨2, 1, "x"⟩ : MNote).text) ∧
      ((⟨1, 1, "x"⟩ : MNote).num = (⟨2, 1, "x"⟩ : MNote).num ∧
        (printedNotes (renumberNotes ns)).countP
          (fun m => m.text = (⟨1, 1, "x"⟩ : MNote).text) = 1 ∧
        ∃ m ∈ printedNotes (renumberNotes ns),
          m.text = (⟨1, 1, "x"⟩ : MNote).text ∧ m.num = (⟨1, 1, "x"⟩ : MNote).num) :=
  ⟨by decide, by decide, by decide,
    C7_merge_note_collapse_amended [⟨1, 5, "x"⟩, ⟨2, 9, "x"⟩] ⟨1, 1, "x"⟩ ⟨2, 1, "x"⟩
      (by decide) (by decide) (by decide)⟩

/-- C7, counterexample.  Two Notes whose trimmed texts are equal but whose
raw texts differ (the decoder produces the text `"a\n"` from a `NOTE a`
record followed by an empty `CONT` line) receive different numbers from the
merge renumbering, and the printed output keeps two records whose trimmed
text is `"a"` — refuting the claim as stated for trimmed-text equality. -/
theorem C7_merge_note_collapse_counterexample :
    let ns : List MNote := [⟨1, 1, "a"⟩, ⟨2, 2, "a\n"⟩]
    (∃ m1 ∈ renumberNotes ns, ∃ m2 ∈ renumberNotes ns,
        pyStrip m1.text = pyStrip m2.text ∧ m1.num ≠ m2.num) ∧
      (printedNotes (renumberNotes ns)).countP
        (fun m => pyStrip m.text = "a") = 2 := by
  refine ⟨⟨⟨1, 1, "a"⟩, by decide, ⟨2, 2, "a\n"⟩, by decide, by decide, by decide⟩,
    by decide⟩

/-- C1.  Demonstration of the round-trip defect on the failing input: a
Graph Store holding one Note whose text is `"a  b"` (two spaces).  The
encoder emits the record faithfully (`0 @N1@ NOTE a  b`), but the decoder's
line reader splits each physical line on whitespace runs and rejoins the
value with single spaces, so the decoded note text is `"a b"` — the decoded
store does not have the same note texts as the original, refuting the claim
for this store. -/
theorem C1_roundtrip_note_divergence :
    let n : MNote := ⟨1, 1, "a  b"⟩
    let g0 : GedReader := { lines := splitlines (notePrint n ++ "0 TRLR\n".data) }
    notePrint n = "0 @N1@ NOTE a  b\n".data ∧
      (getLine g0).2 = true ∧
      (getLine g0).1.level = 0 ∧
      (getLine g0).1.pointer = some "@N1@".data ∧
      (getLine g0).1.tag = "NOTE".data ∧
      (getText (getLine g0).1).2 = "a b".data ∧
      "a b".data ≠ (⟨1, 1, "a  b"⟩ : MNote).text.data := by
  exact ⟨by decide, by decide, by decide, by decide, by decide, by decide, by decide⟩
